import Mathlib

/-!
Shallow embedding of the `ana_budget` CSV ingestion pipeline.

Sources embedded: `src/utils.py`, `src/models.py`, `src/csv_handler.py`,
`src/ana_budget/csv_handler.py`, `src/main_fixed.py`.

Modelling conventions:
- Python strings are Lean `String` (a structure over `List Char`); the worker
  functions are defined on `List Char` with `String` wrappers.
- Python `float` amounts are modelled as `ℚ`.  Every arithmetic operation the
  code performs on amounts (negation, `abs`, comparison with zero) is exact in
  IEEE binary64, and the decimal literals appearing in the concrete statements
  below behave identically in binary64 and in `ℚ` for the compared properties,
  so the rational model is faithful for everything proved here.
- `unicodedata`-based accent stripping is modelled for the precomposed Latin-1
  letters; characters outside the modelled set pass through unchanged.
  Python's `\w`, `\d` and `str.lower` are modelled on ASCII.
- `datetime.strptime` is modelled for the eight formats of `_DATE_FORMATS`
  (C-locale month names, 1-2 digit day/month fields, exactly 4 digit years,
  whitespace in a format matching runs of spaces), and `datetime.fromisoformat`
  by the CPython shape `YYYY-MM-DD`, optionally followed by one separator
  character and a non-empty time tail drawn from digits, `:`, `.`, `+`, `-`,
  `Z` — in particular a tail never contains a space or the letter `T`.
- File input is modelled as the stream of outcomes of the `csv.DictReader`:
  each item either is a raw row (an association list of header cell/value
  strings) or is an exception raised by the reader itself (for example
  `_csv.Error: line contains NUL`).  The CSV serialisation layer of the
  exporter is modelled at field level (the written cell strings), which is
  injective for the fields compared by the round-trip statements.
-/

namespace AnaBudget

/-! ### Character classes (ASCII model of Python's `str.strip`, `\w`, `\d`) -/

/-- Whitespace stripped by Python `str.strip()`: ASCII whitespace and NBSP. -/
def isPySpace (c : Char) : Bool :=
  c.toNat = 32 || c.toNat = 9 || c.toNat = 10 || c.toNat = 13 ||
  c.toNat = 11 || c.toNat = 12 || c.toNat = 160

/-- ASCII decimal digit, the model of `\d`. -/
def isDigitChar (c : Char) : Bool := 48 ≤ c.toNat && c.toNat ≤ 57

/-- ASCII word character, the model of `\w` (letter, digit or underscore). -/
def isWordChar (c : Char) : Bool :=
  (65 ≤ c.toNat && c.toNat ≤ 90) || (97 ≤ c.toNat && c.toNat ≤ 122) ||
  (48 ≤ c.toNat && c.toNat ≤ 57) || c.toNat = 95

/-- Underscore test used by the `_+` collapse and the final `strip("_")`. -/
def isUnd (c : Char) : Bool := decide (c = '_')

/-- ASCII model of `str.lower`. -/
def lowerChar (c : Char) : Char :=
  if 65 ≤ c.toNat ∧ c.toNat ≤ 90 then Char.ofNat (c.toNat + 32) else c

/-- Strip a predicate from both ends of a list (Python `str.strip` shape). -/
def stripEnds (p : Char → Bool) (l : List Char) : List Char :=
  ((l.dropWhile p).reverse.dropWhile p).reverse

/-- Python `str.strip()` on the character list. -/
def trimPy (l : List Char) : List Char := stripEnds isPySpace l

/-- Python `str.strip()` on `String`. -/
def pyStrip (s : String) : String := ⟨trimPy s.data⟩

/-! ### utils.py: strip_accents and normalize_header -/

/-- Combining diacritical marks (Unicode category Mn) of the modelled range;
`strip_accents` discards them after NFD decomposition. -/
def isCombMark (c : Char) : Bool := 768 ≤ c.toNat && c.toNat ≤ 879

/-- NFD base letter of the modelled precomposed Latin-1 letters; ASCII and
unmodelled characters pass through unchanged. -/
def baseChar (c : Char) : Char :=
  if c.toNat ≤ 127 then c
  else if c = 'à' ∨ c = 'á' ∨ c = 'â' ∨ c = 'ä' then 'a'
  else if c = 'À' ∨ c = 'Á' ∨ c = 'Â' ∨ c = 'Ä' then 'A'
  else if c = 'ç' then 'c'
  else if c = 'Ç' then 'C'
  else if c = 'è' ∨ c = 'é' ∨ c = 'ê' ∨ c = 'ë' then 'e'
  else if c = 'È' ∨ c = 'É' ∨ c = 'Ê' ∨ c = 'Ë' then 'E'
  else if c = 'ì' ∨ c = 'í' ∨ c = 'î' ∨ c = 'ï' then 'i'
  else if c = 'Ì' ∨ c = 'Í' ∨ c = 'Î' ∨ c = 'Ï' then 'I'
  else if c = 'ò' ∨ c = 'ó' ∨ c = 'ô' ∨ c = 'ö' then 'o'
  else if c = 'Ò' ∨ c = 'Ó' ∨ c = 'Ô' ∨ c = 'Ö' then 'O'
  else if c = 'ù' ∨ c = 'ú' ∨ c = 'û' ∨ c = 'ü' then 'u'
  else if c = 'Ù' ∨ c = 'Ú' ∨ c = 'Û' ∨ c = 'Ü' then 'U'
  else if c = 'ñ' then 'n'
  else if c = 'Ñ' then 'N'
  else c

/-- One character of `strip_accents`: a combining mark is dropped, any other
character is replaced by its NFD base. -/
def deaccentChar (c : Char) : Option Char :=
  if isCombMark c then none else some (baseChar c)

/-- Embedding of `utils.strip_accents` (on the character list). -/
def strip_accentsL (l : List Char) : List Char := l.filterMap deaccentChar

/-- Replacement of every maximal run of non-`\w` characters by one `_`
(the first `re.sub` of `normalize_header`).  The boolean flag records whether
the previous input character belonged to a non-word run. -/
def subNW : Bool → List Char → List Char
  | _, [] => []
  | inRun, c :: rest =>
    if isWordChar c then c :: subNW false rest
    else if inRun then subNW true rest
    else '_' :: subNW true rest

/-- Collapse of every run of underscores to a single `_` (the second
`re.sub`).  The flag records whether the previously emitted character was
an underscore. -/
def collapseU : Bool → List Char → List Char
  | _, [] => []
  | prevU, c :: rest =>
    if c = '_' then
      if prevU then collapseU true rest else '_' :: collapseU true rest
    else c :: collapseU false rest

/-- Embedding of `utils.normalize_header` on the character list:
accents stripped, lower-cased, trimmed, non-word runs replaced by `_`,
`_` runs collapsed, boundary `_` stripped. -/
def normalize_headerL (l : List Char) : List Char :=
  stripEnds isUnd
    (collapseU false
      (subNW false (trimPy (List.map lowerChar (strip_accentsL l)))))

/-- Embedding of `utils.normalize_header`. -/
def normalize_header (s : String) : String := ⟨normalize_headerL s.data⟩

/-- Characters that can survive normalization: ASCII word characters that are
not upper-case letters. -/
def keepChar (c : Char) : Prop :=
  isWordChar c = true ∧ ¬(65 ≤ c.toNat ∧ c.toNat ≤ 90)

/-- No two adjacent characters are both underscores. -/
def NoAdjUnd (l : List Char) : Prop :=
  l.Chain' (fun a b => ¬(a = '_' ∧ b = '_'))

/-! ### csv_handler.py: parse_amount -/

/-- Characters removed by `_AMOUNT_SEP_RE` (space and NBSP). -/
def isAmountSep (c : Char) : Bool := c.toNat = 32 || c.toNat = 160

/-- Characters kept by the final cleaning `re.sub(r"[^\d\.\-+]", "", value)`. -/
def keepAmountChar (c : Char) : Bool :=
  isDigitChar c || c = '.' || c = '-' || c = '+'

/-- Numeric value of a digit string (most significant digit first). -/
def natVal (l : List Char) : ℕ := l.foldl (fun a c => 10 * a + (c.toNat - 48)) 0

/-- Signed decimal value `±(ip + fp / 10^fl)` assembled by `float()`. -/
def ratOfParts (neg : Bool) (ip fp fl : ℕ) : ℚ :=
  (if neg then -1 else 1) * ((ip : ℚ) + (fp : ℚ) / (10 : ℚ) ^ fl)

/-- Model of Python `float()` restricted to its possible inputs here: after
cleaning, the string contains only digits, `.`, `+`, `-`.  The accepted shape
is an optional leading sign followed by `digits`, `digits.digits?` or
`.digits`. -/
def pyFloat (l : List Char) : Option ℚ :=
  let neg : Bool := l.head? = some '-'
  let body := if l.head? = some '-' ∨ l.head? = some '+' then l.tail else l
  let intPart := body.takeWhile isDigitChar
  let rest := body.dropWhile isDigitChar
  if rest = [] then
    if intPart = [] then none else some (ratOfParts neg (natVal intPart) 0 0)
  else if rest.head? = some '.' ∧ rest.tail.all isDigitChar ∧
      (intPart ≠ [] ∨ rest.tail ≠ []) then
    some (ratOfParts neg (natVal intPart) (natVal rest.tail) rest.tail.length)
  else none

/-- Condition of the first decimal-separator rule: exactly one comma and no
period. -/
def rule1Applies (l : List Char) : Bool :=
  l.count ',' = 1 && !(l.contains '.')

/-- Index of the first occurrence of a character (length if absent). -/
def firstIdx (c : Char) : List Char → ℕ
  | [] => 0
  | x :: t => if x = c then 0 else firstIdx c t + 1

/-- Condition of the second rule: both separators present and the last comma
occurs after the last period (`value.rfind(",") > value.rfind(".")`). -/
def rule2Applies (l : List Char) : Bool :=
  l.contains ',' && l.contains '.' &&
    decide (firstIdx ',' l.reverse < firstIdx '.' l.reverse)

/-- Cleaning pipeline of `parse_amount` after the parenthesis unwrapping:
separator removal, the two decimal-separator rules, the character filter, the
bare-sign guard and the final `float()` call. -/
def amountCore (v0 : List Char) : Option ℚ :=
  let v1 := v0.filter (fun c => !isAmountSep c)
  let v2 := if rule1Applies v1 then v1.map (fun c => if c = ',' then '.' else c) else v1
  let v3 :=
    if rule2Applies v2 then
      (v2.filter (fun c => !(c = '.' : Bool))).map (fun c => if c = ',' then '.' else c)
    else v2
  let v4 := v3.filter keepAmountChar
  if v4 = [] ∨ v4 = ['-'] ∨ v4 = ['+'] then none else pyFloat v4

/-- Test `value.startswith("(") and value.endswith(")")`. -/
def isParenWrapped (l : List Char) : Bool :=
  match l.head?, l.getLast? with
  | some '(', some ')' => true
  | _, _ => false

/-- Embedding of `csv_handler.parse_amount` (identical in the three source
variants): trim, accounting-parenthesis unwrap remembering the negative flag,
then the cleaning pipeline; on a parenthesised value the final result is
`-abs(number)`. -/
def parse_amountL (raw : List Char) : Option ℚ :=
  let value := trimPy raw
  if value = [] then none
  else if isParenWrapped value then
    (amountCore ((value.drop 1).dropLast)).map (fun q => -|q|)
  else amountCore value

/-- Embedding of `parse_amount` on `String`.  (A Python `None` argument also
returns `None` in the source; only string arguments are modelled.) -/
def parse_amount (s : String) : Option ℚ := parse_amountL s.data

/-! ### csv_handler.py: parse_date and its two source variants -/

/-- Calendar date as produced by `datetime.date`. -/
structure PyDate where
  year : ℕ
  month : ℕ
  day : ℕ
deriving DecidableEq

/-- Gregorian leap year rule used by `datetime`. -/
def isLeapYear (y : ℕ) : Bool := y % 4 = 0 && (y % 100 ≠ 0 || y % 400 = 0)

/-- Length of a month. -/
def daysInMonth (y m : ℕ) : ℕ :=
  if m = 2 then (if isLeapYear y then 29 else 28)
  else if m = 4 ∨ m = 6 ∨ m = 9 ∨ m = 11 then 30
  else 31

/-- Validated date construction (`datetime` raises on out-of-range fields). -/
def mkDate (y m d : ℕ) : Option PyDate :=
  if 1 ≤ y ∧ y ≤ 9999 ∧ 1 ≤ m ∧ m ≤ 12 ∧ 1 ≤ d ∧ d ≤ daysInMonth y m then
    some ⟨y, m, d⟩
  else none

/-- Dates `datetime.date` can represent (the range `mkDate` validates). -/
def ValidDate (d : PyDate) : Prop :=
  1 ≤ d.year ∧ d.year ≤ 9999 ∧ 1 ≤ d.month ∧ d.month ≤ 12 ∧
    1 ≤ d.day ∧ d.day ≤ daysInMonth d.year d.month

/-- Field of one or two digits (`%d`, `%m`). -/
def parse2 (l : List Char) : Option ℕ :=
  if l ≠ [] ∧ l.length ≤ 2 ∧ l.all isDigitChar then some (natVal l) else none

/-- Field of exactly four digits (`%Y`). -/
def parse4 (l : List Char) : Option ℕ :=
  if l.length = 4 ∧ l.all isDigitChar then some (natVal l) else none

/-- Split on a separator character (like `str.split(sep)`). -/
def splitOnChar (c : Char) : List Char → List (List Char)
  | [] => [[]]
  | x :: rest =>
    if x = c then [] :: splitOnChar c rest
    else
      match splitOnChar c rest with
      | h :: t => (x :: h) :: t
      | [] => [[x]]

/-- Space-separated fields: a whitespace literal in a `strptime` format
matches a run of spaces, so empty components are dropped. -/
def spaceParts (l : List Char) : List (List Char) :=
  (splitOnChar ' ' l).filter (fun p => p ≠ [])

/-- Formats `%d<sep>%m<sep>%Y`. -/
def tryDMY (sep : Char) (l : List Char) : Option PyDate :=
  match splitOnChar sep l with
  | [a, b, c] =>
    match parse2 a, parse2 b, parse4 c with
    | some d, some m, some y => mkDate y m d
    | _, _, _ => none
  | _ => none

/-- Formats `%Y<sep>%m<sep>%d`. -/
def tryYMD (sep : Char) (l : List Char) : Option PyDate :=
  match splitOnChar sep l with
  | [a, b, c] =>
    match parse4 a, parse2 b, parse2 c with
    | some y, some m, some d => mkDate y m d
    | _, _, _ => none
  | _ => none

/-- Format `%d %m %Y`. -/
def tryDMYspace (l : List Char) : Option PyDate :=
  match spaceParts l with
  | [a, b, c] =>
    match parse2 a, parse2 b, parse4 c with
    | some d, some m, some y => mkDate y m d
    | _, _, _ => none
  | _ => none

/-- C-locale month abbreviations recognised by `%b`. -/
def monthAbbrevs : List (List Char) :=
  [['j','a','n'], ['f','e','b'], ['m','a','r'], ['a','p','r'], ['m','a','y'],
   ['j','u','n'], ['j','u','l'], ['a','u','g'], ['s','e','p'], ['o','c','t'],
   ['n','o','v'], ['d','e','c']]

/-- C-locale full month names recognised by `%B`. -/
def monthFulls : List (List Char) :=
  ["january".data, "february".data, "march".data, "april".data, "may".data,
   "june".data, "july".data, "august".data, "september".data, "october".data,
   "november".data, "december".data]

/-- Case-insensitive month-name lookup (1-based month number). -/
def monthFromName (tbl : List (List Char)) (l : List Char) : Option ℕ :=
  (tbl.findIdx? (fun m => m = l.map lowerChar)).map (· + 1)

/-- Formats `%d %b %Y` and `%d %B %Y`. -/
def tryDNameY (tbl : List (List Char)) (l : List Char) : Option PyDate :=
  match spaceParts l with
  | [a, b, c] =>
    match parse2 a, monthFromName tbl b, parse4 c with
    | some d, some m, some y => mkDate y m d
    | _, _, _ => none
  | _ => none

/-- First-success choice used to sequence the parser attempts. -/
def oalt : Option PyDate → Option PyDate → Option PyDate
  | some d, _ => some d
  | none, b => b

/-- First success over the `_DATE_FORMATS` list, in source order. -/
def fmtFirst (l : List Char) : Option PyDate :=
  oalt (tryDMY '/' l)
    (oalt (tryYMD '-' l)
      (oalt (tryDMY '-' l)
        (oalt (tryDMY '.' l)
          (oalt (tryDMYspace l)
            (oalt (tryDNameY monthAbbrevs l)
              (oalt (tryDNameY monthFulls l) (tryYMD '/' l)))))))

/-- Strict ISO calendar-date shape `YYYY-MM-DD`. -/
def parseIsoDate10 : List Char → Option PyDate
  | [y1, y2, y3, y4, s1, m1, m2, s2, d1, d2] =>
    if s1 = '-' ∧ s2 = '-' ∧ ([y1, y2, y3, y4, m1, m2, d1, d2]).all isDigitChar then
      mkDate (natVal [y1, y2, y3, y4]) (natVal [m1, m2]) (natVal [d1, d2])
    else none
  | _ => none

/-- Characters a `fromisoformat` time tail can contain; never a space or `T`. -/
def isoTailChar (c : Char) : Bool :=
  isDigitChar c || c = ':' || c = '.' || c = '+' || c = '-' || c = 'Z' || c = 'z'

/-- Model of `datetime.fromisoformat(...).date()`: the date `YYYY-MM-DD`,
optionally followed by a single separator character and a non-empty time
tail. -/
def fromisoformat (l : List Char) : Option PyDate :=
  if l.length = 10 then parseIsoDate10 l
  else if 10 < l.length then
    if (l.drop 11) ≠ [] ∧ (l.drop 11).all isoTailChar then parseIsoDate10 (l.take 10)
    else none
  else none

/-- Truncation `re.sub(r"[ T].*$", "", value)`: keep everything before the
first space or `T`. -/
def truncAtST (l : List Char) : List Char :=
  l.takeWhile (fun c => decide (c ≠ ' ' ∧ c ≠ 'T'))

/-- Decimal digit characters of a number, most significant first (fuelled). -/
def natDigitsAux : ℕ → ℕ → List Char
  | 0, _ => []
  | _, 0 => []
  | fuel + 1, n + 1 => natDigitsAux fuel ((n + 1) / 10) ++ [Nat.digitChar ((n + 1) % 10)]

/-- Decimal representation of a natural number. -/
def natDigits (n : ℕ) : List Char := if n = 0 then ['0'] else natDigitsAux n n

/-- Zero-padding to a width (`%02d`, `%04d`). -/
def padNum (w n : ℕ) : List Char :=
  List.replicate (w - (natDigits n).length) '0' ++ natDigits n

/-- Printer `date.isoformat()`. -/
def isoformatL (d : PyDate) : List Char :=
  padNum 4 d.year ++ '-' :: (padNum 2 d.month ++ '-' :: padNum 2 d.day)

/-- Attempt sequence of `src/csv_handler.py`'s `parse_date`: for each
candidate (the trimmed value, then — when different and non-empty — its
truncation) the eight formats are tried and then the ISO fallback. -/
def parse_dateCore (v : List Char) : Option PyDate :=
  let sh := truncAtST v
  oalt (oalt (fmtFirst v) (fromisoformat v))
    (if sh ≠ [] ∧ sh ≠ v then oalt (fmtFirst sh) (fromisoformat sh) else none)

/-- Embedding of `src/csv_handler.py`'s `parse_date` on character lists. -/
def parse_dateL (raw : List Char) : List Char :=
  let value := trimPy raw
  if value = [] then []
  else
    match parse_dateCore value with
    | some d => isoformatL d
    | none => value

/-- Embedding of `src/csv_handler.py`'s `parse_date`. -/
def parse_date (s : String) : String := ⟨parse_dateL s.data⟩

/-- Attempt sequence of `src/ana_budget/csv_handler.py`'s `_parse_date`:
formats on the value, then formats on the truncation only when it differs,
then the ISO fallback on the truncation. -/
def parse_dateAnaCore (v : List Char) : Option PyDate :=
  let cleaned := truncAtST v
  oalt (fmtFirst v)
    (oalt (if cleaned ≠ v then fmtFirst cleaned else none) (fromisoformat cleaned))

/-- Embedding of `src/ana_budget/csv_handler.py`'s `_parse_date` on lists. -/
def parse_dateAnaL (raw : List Char) : List Char :=
  let value := trimPy raw
  if value = [] then []
  else
    match parse_dateAnaCore value with
    | some d => isoformatL d
    | none => value

/-- Embedding of `src/ana_budget/csv_handler.py`'s `_parse_date`. -/
def parse_dateAna (s : String) : String := ⟨parse_dateAnaL s.data⟩

/-- Attempt sequence of `src/main_fixed.py`'s `parse_date`: formats on the
value, formats on the truncation unconditionally, then the ISO fallback on
the truncation. -/
def parse_dateFixedCore (v : List Char) : Option PyDate :=
  oalt (fmtFirst v)
    (oalt (fmtFirst (truncAtST v)) (fromisoformat (truncAtST v)))

/-- Embedding of `src/main_fixed.py`'s `parse_date` on character lists. -/
def parse_dateFixedL (raw : List Char) : List Char :=
  let s := trimPy raw
  if s = [] then []
  else
    match parse_dateFixedCore s with
    | some d => isoformatL d
    | none => s

/-- Embedding of `src/main_fixed.py`'s `parse_date`. -/
def parse_dateFixed (s : String) : String := ⟨parse_dateFixedL s.data⟩

/-! ### models.py: the canonical record -/

/-- Embedding of the dataclass `models.OperationBancaire` (amounts as `ℚ`). -/
structure OperationBancaire where
  date_comptabilisation : String := ""
  libelle_simplifie : String := ""
  libelle_operation : String := ""
  reference : String := ""
  informations_complementaires : String := ""
  type_operation : String := ""
  categorie : String := ""
  sous_categorie : String := ""
  debit : Option ℚ := none
  credit : Option ℚ := none
deriving DecidableEq

/-- Logical fields of the ingestion pipeline (keys of `HEADER_ALIASES`). -/
inductive Field
  | date_comptabilisation
  | libelle_simplifie
  | libelle_operation
  | reference
  | informations_complementaires
  | type_operation
  | categorie
  | sous_categorie
  | debit
  | credit
  | montant
deriving DecidableEq

/-! ### csv_handler.py: header alias resolution -/

/-- The `HEADER_ALIASES` table in source-text declaration order.  In the
source each synonym collection is a Python `set` literal, so the runtime
iteration order of `map_headers_to_fields` is an unspecified enumeration of
this collection, not necessarily this declaration order. -/
def aliasDecl : Field → List String
  | .date_comptabilisation =>
    ["date_comptabilisation", "date", "date_operation", "date_valeur",
     "date_de_comptabilisation"]
  | .libelle_simplifie =>
    ["libelle_simplifie", "libelle_simplifiee", "libelle", "intitule",
     "description"]
  | .libelle_operation => ["libelle_operation", "details", "intitule_complet"]
  | .reference => ["reference", "ref", "id_operation", "numero_operation"]
  | .informations_complementaires =>
    ["informations_complementaires", "infos", "information", "note", "memo"]
  | .type_operation => ["type_operation", "type", "mode", "categorie_banque"]
  | .categorie => ["categorie", "category"]
  | .sous_categorie => ["sous_categorie", "sous_categ", "subcategory"]
  | .debit => ["debit", "montant_debit", "sortie", "amount_out", "montant_negatif"]
  | .credit => ["credit", "montant_credit", "entree", "amount_in", "montant_positif"]
  | .montant => ["montant", "amount", "valeur"]

/-- Embedding of `map_headers_to_fields`, parameterised by the enumeration
order `order` in which the Python `set` of aliases is iterated: the first
alias whose normalization occurs among the normalized headers wins, and the
stored value is that normalized alias. -/
def map_headers_to_fields (order : Field → List String) (norm_headers : List String)
    (f : Field) : Option String :=
  ((order f).find? (fun a => norm_headers.contains (normalize_header a))).map
    normalize_header

/-- An enumeration order is valid when, for every field, it enumerates
exactly the members of the alias set (a Python `set` iteration yields each
element exactly once, in an unspecified order). -/
def ValidEnum (order : Field → List String) : Prop :=
  ∀ f, (order f).Perm (aliasDecl f)

/-! ### csv_handler.py: row conversion (lines 173-224) -/

/-- The sign fixup `if v is not None and v < 0: v = abs(v)` applied to the
parsed `debit`/`credit` columns in `src/csv_handler.py` (absent from the
`ana_budget` variant). -/
def absFix : Option ℚ → Option ℚ
  | some q => if q < 0 then some |q| else some q
  | none => none

/-- Reconciliation of a single `montant` column into `debit`/`credit`
(identical in both source variants): it fires only when both parsed values
are absent and the raw amount cell is non-empty. -/
def reconcile (debit credit : Option ℚ) (montant_raw : String) :
    Option ℚ × Option ℚ :=
  if debit = none ∧ credit = none ∧ montant_raw ≠ "" then
    match parse_amount montant_raw with
    | some m =>
      if m < 0 then (some |m|, none)
      else if 0 < m then (none, some m)
      else (some 0, some 0)
    | none => (debit, credit)
  else (debit, credit)

/-- Conversion of one data row by `src/csv_handler.py`'s
`import_operations_from_csv`, abstracted over the per-field cell lookup
`get` (the composition of the resolved header mapping with the normalized,
stripped row dictionary; an unresolved field yields `""`).  Every step is
total, so the conversion never raises. -/
def convert_row (get : Field → String) : OperationBancaire :=
  let debit0 := absFix (parse_amount (get .debit))
  let credit0 := absFix (parse_amount (get .credit))
  let dc := reconcile debit0 credit0 (get .montant)
  let ls := get .libelle_simplifie
  { date_comptabilisation := parse_date (get .date_comptabilisation)
    libelle_simplifie := if ls = "" then get .libelle_operation else ls
    libelle_operation := get .libelle_operation
    reference := get .reference
    informations_complementaires := get .informations_complementaires
    type_operation := get .type_operation
    categorie := get .categorie
    sous_categorie := get .sous_categorie
    debit := dc.1
    credit := dc.2 }

/-- Conversion of one data row by `src/ana_budget/csv_handler.py`'s
`import_operations_from_csv`: the amount columns are parsed only when
non-empty (equivalent, since `parse_amount "" = none`), its `_parse_date`
is used, and there is no sign fixup on the dedicated columns. -/
def convert_row_ana (get : Field → String) : OperationBancaire :=
  let debit0 := if get .debit ≠ "" then parse_amount (get .debit) else none
  let credit0 := if get .credit ≠ "" then parse_amount (get .credit) else none
  let dc := reconcile debit0 credit0 (get .montant)
  let ls := get .libelle_simplifie
  { date_comptabilisation := parse_dateAna (get .date_comptabilisation)
    libelle_simplifie := if ls = "" then get .libelle_operation else ls
    libelle_operation := get .libelle_operation
    reference := get .reference
    informations_complementaires := get .informations_complementaires
    type_operation := get .type_operation
    categorie := get .categorie
    sous_categorie := get .sous_categorie
    debit := dc.1
    credit := dc.2 }

/-! ### csv_handler.py: the ingestion loop -/

/-- A raw row as yielded by `csv.DictReader`: header cell to value text
(Python `None` values are absorbed as `""`, exactly as both the conversion
and the preview do). -/
abbrev RawRow := List (String × String)

/-- One item of the row stream under `csv.DictReader`.  `row cells extra` is
a yielded row: `cells` holds the cells of the named header columns (a missing
cell is the `restval None`, absorbed as `""` exactly as `(v or "")` does),
and `extra` holds the cells beyond the header row, which `DictReader` stores
as a Python `list` under the `restkey None` (`extra = []` when the row is not
overlong, since the `restkey` entry is only created for overlong rows).
`blank` is an empty physical row (`row == []`), which `DictReader.__next__`
skips silently without yielding it.  `failed` is an exception raised by the
reader itself while producing the next row (for example `_csv.Error: line
contains NUL`). -/
inductive ReaderItem where
  | row (cells : RawRow) (extra : List String)
  | blank
  | failed (msg : String)
deriving DecidableEq

/-- Errors with which the ingestion aborts.  `rowError` mirrors the
`RuntimeError(f"Erreur à la ligne {idx}: {exc}\n  Aperçu: {preview}")`
wrapper of the per-row `try`/`except`; the preview dictionary is the raw row
with `None` cell values replaced by `""`, i.e. the named cells together with
the `restkey` list of extra cells.  `readerFailure` is an exception escaping
from the `for` statement's call into the reader, which the per-row handler
does not wrap. -/
inductive IngestError where
  | readerFailure (msg : String)
  | rowError (rowIdx : ℕ) (previewCells : RawRow) (previewExtra : List String)
      (msg : String)
deriving DecidableEq

/-- Marker for the one exception the conversion of a yielded row can raise:
on an overlong row the normalization comprehension evaluates
`(v or "").strip()` on the `restkey` value, a non-empty Python `list`, which
raises `AttributeError`.  Only the exception class is recorded, not CPython's
message text. -/
def restkeyErrorMsg : String := "AttributeError"

/-- The normalized row dictionary `{normalize_header(k): (v or "").strip()}`;
on duplicate normalized keys the later entry overwrites (Python dict
comprehension), hence the reversed lookup. -/
def rowNormLookup (row : RawRow) (k : String) : Option String :=
  ((row.map (fun p => (normalize_header p.1, pyStrip p.2))).reverse).lookup k

/-- The `get_value` helper: a resolved field reads its mapped column from
the normalized row (default `""`), an unresolved field yields `""`. -/
def getValueOf (fieldMap : Field → Option String) (row : RawRow) (f : Field) :
    String :=
  match fieldMap f with
  | some k => (rowNormLookup row k).getD ""
  | none => ""

/-- The row loop `for idx, raw_row in enumerate(reader, start=2)` of
`src/csv_handler.py`.  The counter mirrors `enumerate(..., start=2)` and
counts only the rows `DictReader` yields: blank physical rows are skipped
inside the reader before `enumerate` sees them, so they advance neither the
counter nor the output.  An exception raised by the reader itself occurs in
the `for` statement, outside the per-row `try`, so it propagates unwrapped.
The conversion of a yielded row raises exactly when the row is overlong —
the normalization comprehension calls `.strip()` on the `restkey` list — and
the per-row `except` re-raises this as the row-addressed `RuntimeError`
carrying the 1-based row number and the raw-row preview; every other step of
the conversion is total.  On an abort the accumulated records are discarded
(the caller receives only the error). -/
def ingestRows (fieldMap : Field → Option String) :
    ℕ → List ReaderItem → Except IngestError (List OperationBancaire)
  | _, [] => .ok []
  | _, .failed e :: _ => .error (.readerFailure e)
  | idx, .blank :: rest => ingestRows fieldMap idx rest
  | idx, .row cells extra :: rest =>
    if extra = [] then
      match ingestRows fieldMap (idx + 1) rest with
      | .ok ops => .ok (convert_row (getValueOf fieldMap cells) :: ops)
      | .error err => .error err
    else .error (.rowError idx cells extra restkeyErrorMsg)

/-- Ingestion after the header has been read and resolved: the data rows are
processed in order starting at row number 2 (the header is row 1). -/
def import_operations_rows (fieldMap : Field → Option String)
    (items : List ReaderItem) : Except IngestError (List OperationBancaire) :=
  ingestRows fieldMap 2 items

/-! ### models.py / csv_handler.py: export and re-ingestion -/

/-- Round half to even, the rounding of `format(x, ".2f")` (exact on the
rational model; Python rounds the binary64 value, which agrees on the
two-decimal multiples handled below). -/
def roundHalfEven (q : ℚ) : ℤ :=
  if q - ⌊q⌋ < 1 / 2 then ⌊q⌋
  else if 1 / 2 < q - ⌊q⌋ then ⌊q⌋ + 1
  else if ⌊q⌋ % 2 = 0 then ⌊q⌋ else ⌊q⌋ + 1

/-- The two-decimal formatting `f"{v:.2f}"` of `to_dict_export`. -/
def format2dec (q : ℚ) : List Char :=
  let n := roundHalfEven (100 * q)
  (if n < 0 then ['-'] else []) ++
    (natDigits (n.natAbs / 100) ++ '.' :: padNum 2 (n.natAbs % 100))

/-- Amount cell written by `OperationBancaire.to_dict_export`: two-decimal
text when present, empty when absent. -/
def exportAmountCell : Option ℚ → String
  | some q => ⟨format2dec q⟩
  | none => ""

/-- The cell strings written for one record by `export_operations_to_csv`
(the fixed 10-column schema; the export has no `montant` column). -/
def exportRow (op : OperationBancaire) : Field → String
  | .date_comptabilisation => op.date_comptabilisation
  | .libelle_simplifie => op.libelle_simplifie
  | .libelle_operation => op.libelle_operation
  | .reference => op.reference
  | .informations_complementaires => op.informations_complementaires
  | .type_operation => op.type_operation
  | .categorie => op.categorie
  | .sous_categorie => op.sous_categorie
  | .debit => exportAmountCell op.debit
  | .credit => exportAmountCell op.credit
  | .montant => ""

/-- Re-ingestion of one exported record: each exported header is its own
normalized name, so every logical field resolves to its own column (and
`montant` is unresolved); the re-imported cell values are stripped and the
row converted as usual. -/
def reingest_row (op : OperationBancaire) : OperationBancaire :=
  convert_row (fun f => pyStrip (exportRow op f))

/-! ### Concrete inputs used by witnesses and counterexamples -/

/-- Field map with no resolved column. -/
def emptyFieldMap : Field → Option String := fun _ => none

/-- A concrete raw row with a single montant cell. -/
def rowMontant10 : RawRow := [("montant", "10")]

/-- Whether an ingestion outcome is a row-addressed error. -/
def isRowAddressed : Except IngestError (List OperationBancaire) → Bool
  | .error (.rowError _ _ _ _) => true
  | _ => false

/-- The named-header cell rows that `DictReader` yields from a stream, in
order: blank physical rows are skipped and contribute nothing. -/
def yieldedRows : List ReaderItem → List RawRow
  | [] => []
  | .row cells _ :: rest => cells :: yieldedRows rest
  | .blank :: rest => yieldedRows rest
  | .failed _ :: rest => yieldedRows rest

/-- Row whose dedicated debit column holds a negative amount. -/
def negDebitRow : Field → String
  | .debit => "-50"
  | _ => ""

/-- Row with only a negative montant cell. -/
def montantNeg50Row : Field → String
  | .montant => "-50,00"
  | _ => ""

/-- Row with only a positive three-decimal montant cell. -/
def montant3decRow : Field → String
  | .montant => "12,345"
  | _ => ""

/-- The alias table enumerated in reversed declaration order: one of the
enumeration orders a Python `set` iteration may exhibit. -/
def revAliasOrder : Field → List String := fun f => (aliasDecl f).reverse

/-- Normalized headers of the spec example `["Date Valeur", "Montant"]`. -/
def specExampleHeaders : List String := ["Date Valeur", "Montant"].map normalize_header

/-- Normalized header set containing two aliases of the booking date. -/
def twoDateHeaders : List String := ["date", "date_valeur"]

/-! ## Theorems -/

/-! ### Generic character and list lemmas -/

theorem char_toNat_ofNat_of_lt (n : ℕ) (h : n < 55296) : (Char.ofNat n).toNat = n := by
  have hv : Nat.isValidChar n := Or.inl h
  simp [Char.ofNat, hv, Char.ofNatAux, Char.toNat, UInt32.ofNat', UInt32.toNat]

theorem lowerChar_not_upper (c : Char) :
    ¬(65 ≤ (lowerChar c).toNat ∧ (lowerChar c).toNat ≤ 90) := by
  unfold lowerChar
  split
  · next h => rw [char_toNat_ofNat_of_lt (c.toNat + 32) (by omega)]; omega
  · next h => omega

theorem mem_of_head? {l : List Char} {c : Char} (h : l.head? = some c) : c ∈ l := by
  cases l <;> simp_all

theorem mem_of_getLast? {l : List Char} {c : Char} (h : l.getLast? = some c) :
    c ∈ l := by
  rw [← List.head?_reverse] at h
  exact (List.mem_reverse).mp (mem_of_head? h)

theorem dropWhile_eq_self_of_head {p : Char → Bool} {l : List Char}
    (h : ∀ c, l.head? = some c → p c = false) : l.dropWhile p = l := by
  cases l with
  | nil => rfl
  | cons a t => simp [List.dropWhile_cons, h a rfl]

theorem head?_dropWhile_false {p : Char → Bool} :
    ∀ {l : List Char} {c : Char}, (l.dropWhile p).head? = some c → p c = false := by
  intro l
  induction l with
  | nil => intro c h; simp [List.dropWhile] at h
  | cons a t ih =>
    intro c h
    rw [List.dropWhile_cons] at h
    by_cases hpa : p a = true
    · rw [if_pos hpa] at h; exact ih h
    · rw [if_neg hpa] at h
      simp only [List.head?_cons, Option.some.injEq] at h
      subst h
      exact Bool.eq_false_iff.mpr hpa

theorem getLast?_cons_ne_nil {a : Char} {t : List Char} (h : t ≠ []) :
    (a :: t).getLast? = t.getLast? := by
  cases t with
  | nil => exact absurd rfl h
  | cons b u => exact List.getLast?_cons_cons

theorem getLast?_dropWhile {p : Char → Bool} :
    ∀ {l : List Char}, l.dropWhile p ≠ [] → (l.dropWhile p).getLast? = l.getLast? := by
  intro l
  induction l with
  | nil => intro h; exact absurd rfl h
  | cons a t ih =>
    intro h
    rw [List.dropWhile_cons] at h ⊢
    by_cases hpa : p a = true
    · rw [if_pos hpa] at h ⊢
      have ht : t ≠ [] := by
        intro e; subst e; simp [List.dropWhile] at h
      rw [ih h, getLast?_cons_ne_nil ht]
    · rw [if_neg hpa] at h ⊢

theorem head?_stripEnds_false {p : Char → Bool} {l : List Char} {c : Char}
    (h : (stripEnds p l).head? = some c) : p c = false := by
  unfold stripEnds at h
  rw [List.head?_reverse] at h
  have hne : (l.dropWhile p).reverse.dropWhile p ≠ [] := by
    intro e; rw [e] at h; simp at h
  rw [getLast?_dropWhile hne, List.getLast?_reverse] at h
  exact head?_dropWhile_false h

theorem getLast?_stripEnds_false {p : Char → Bool} {l : List Char} {c : Char}
    (h : (stripEnds p l).getLast? = some c) : p c = false := by
  unfold stripEnds at h
  rw [List.getLast?_reverse] at h
  exact head?_dropWhile_false h

theorem stripEnds_eq_self {p : Char → Bool} {l : List Char}
    (h1 : ∀ c, l.head? = some c → p c = false)
    (h2 : ∀ c, l.getLast? = some c → p c = false) : stripEnds p l = l := by
  unfold stripEnds
  rw [dropWhile_eq_self_of_head h1]
  rw [dropWhile_eq_self_of_head (fun c hc => h2 c (by rwa [List.head?_reverse] at hc))]
  exact List.reverse_reverse l

theorem stripEnds_subset {p : Char → Bool} {l : List Char} :
    stripEnds p l ⊆ l := by
  intro c hc
  unfold stripEnds at hc
  rw [List.mem_reverse] at hc
  have hc2 := (List.dropWhile_suffix p).subset hc
  rw [List.mem_reverse] at hc2
  exact (List.dropWhile_suffix p).subset hc2

theorem chain'_dropWhile {R : Char → Char → Prop} {p : Char → Bool} :
    ∀ {l : List Char}, l.Chain' R → (l.dropWhile p).Chain' R := by
  intro l
  induction l with
  | nil => intro h; exact h
  | cons a t ih =>
    intro h
    rw [List.dropWhile_cons]
    by_cases hpa : p a = true
    · rw [if_pos hpa]; exact ih h.tail
    · rw [if_neg hpa]; exact h

theorem chain'_stripEnds {R : Char → Char → Prop}
    {p : Char → Bool} {l : List Char} (h : l.Chain' R) : (stripEnds p l).Chain' R := by
  unfold stripEnds
  rw [List.chain'_reverse]
  refine chain'_dropWhile ?_
  rw [List.chain'_reverse]
  exact List.Chain'.imp (fun a b hr => hr) (chain'_dropWhile h)

/-! ### Normalization: idempotence machinery -/

theorem keep_deaccent {c : Char} (h : keepChar c) : deaccentChar c = some c := by
  obtain ⟨hw, hu⟩ := h
  simp only [isWordChar, Bool.or_eq_true, Bool.and_eq_true, decide_eq_true_eq] at hw
  have h1 : isCombMark c = false := by simp only [isCombMark]; simp; omega
  have h2 : baseChar c = c := by unfold baseChar; rw [if_pos (by omega)]
  simp [deaccentChar, h1, h2]

theorem keep_lower {c : Char} (h : keepChar c) : lowerChar c = c := by
  unfold lowerChar
  rw [if_neg h.2]

theorem keep_not_space {c : Char} (h : keepChar c) : isPySpace c = false := by
  obtain ⟨hw, hu⟩ := h
  simp only [isWordChar, Bool.or_eq_true, Bool.and_eq_true, decide_eq_true_eq] at hw
  simp only [isPySpace]
  simp
  omega

theorem keep_underscore : keepChar '_' := by
  constructor
  · decide
  · decide

theorem subNW_mem :
    ∀ (b : Bool) (l : List Char) (c : Char),
      c ∈ subNW b l → c = '_' ∨ (isWordChar c = true ∧ c ∈ l) := by
  intro b l
  induction l generalizing b with
  | nil => intro c hc; simp [subNW] at hc
  | cons a t ih =>
    intro c hc
    unfold subNW at hc
    by_cases hwa : isWordChar a = true
    · rw [if_pos hwa] at hc
      rcases List.mem_cons.mp hc with h | h
      · rw [h]; exact Or.inr ⟨hwa, List.mem_cons_self a t⟩
      · rcases ih false c h with h' | ⟨h1, h2⟩
        · exact Or.inl h'
        · exact Or.inr ⟨h1, List.mem_cons_of_mem a h2⟩
    · rw [if_neg hwa] at hc
      by_cases hb : b = true
      · rw [if_pos hb] at hc
        rcases ih true c hc with h' | ⟨h1, h2⟩
        · exact Or.inl h'
        · exact Or.inr ⟨h1, List.mem_cons_of_mem a h2⟩
      · rw [if_neg hb] at hc
        rcases List.mem_cons.mp hc with h | h
        · exact Or.inl h
        · rcases ih true c h with h' | ⟨h1, h2⟩
          · exact Or.inl h'
          · exact Or.inr ⟨h1, List.mem_cons_of_mem a h2⟩

theorem collapseU_cons (b : Bool) (a : Char) (t : List Char) :
    collapseU b (a :: t) =
      if a = '_' then (if b then collapseU true t else '_' :: collapseU true t)
      else a :: collapseU false t := by
  cases b <;> rfl

theorem collapseU_mem :
    ∀ (b : Bool) (l : List Char) (c : Char), c ∈ collapseU b l → c ∈ l ∨ c = '_' := by
  intro b l
  induction l generalizing b with
  | nil => intro c hc; simp [collapseU] at hc
  | cons a t ih =>
    intro c hc
    unfold collapseU at hc
    by_cases ha : a = '_'
    · rw [if_pos ha] at hc
      by_cases hb : b = true
      · rw [if_pos hb] at hc
        rcases ih true c hc with h | h
        · exact Or.inl (List.mem_cons_of_mem a h)
        · exact Or.inr h
      · rw [if_neg hb] at hc
        rcases List.mem_cons.mp hc with h | h
        · exact Or.inr (h.trans rfl)
        · rcases ih true c h with h' | h'
          · exact Or.inl (List.mem_cons_of_mem a h')
          · exact Or.inr h'
    · rw [if_neg ha] at hc
      rcases List.mem_cons.mp hc with h | h
      · subst h; exact Or.inl (List.mem_cons_self c t)
      · rcases ih false c h with h' | h'
        · exact Or.inl (List.mem_cons_of_mem a h')
        · exact Or.inr h'

theorem collapseU_true_head : ∀ l : List Char, (collapseU true l).head? ≠ some '_' := by
  intro l
  induction l with
  | nil => simp [collapseU]
  | cons a t ih =>
    unfold collapseU
    by_cases ha : a = '_'
    · rw [if_pos ha, if_pos rfl]; exact ih
    · rw [if_neg ha]
      simp only [List.head?_cons, ne_eq, Option.some.injEq]
      exact ha

theorem collapseU_chain :
    ∀ l : List Char, NoAdjUnd (collapseU false l) ∧ NoAdjUnd (collapseU true l) := by
  intro l
  induction l with
  | nil => exact ⟨List.chain'_nil, List.chain'_nil⟩
  | cons a t ih =>
    by_cases ha : a = '_'
    · subst ha
      constructor
      · have he : collapseU false ('_' :: t) = '_' :: collapseU true t := rfl
        rw [he, NoAdjUnd, List.chain'_cons']
        refine ⟨?_, ih.2⟩
        intro y hy hcon
        rw [Option.mem_def, hcon.2] at hy
        exact collapseU_true_head t hy
      · have he : collapseU true ('_' :: t) = collapseU true t := rfl
        rw [he]
        exact ih.2
    · have hf : collapseU false (a :: t) = a :: collapseU false t := by
        rw [collapseU_cons, if_neg ha]
      have htr : collapseU true (a :: t) = a :: collapseU false t := by
        rw [collapseU_cons, if_neg ha]
      have hcons : NoAdjUnd (a :: collapseU false t) := by
        rw [NoAdjUnd, List.chain'_cons']
        exact ⟨fun y _ hcon => ha hcon.1, ih.1⟩
      rw [hf, htr]
      exact ⟨hcons, hcons⟩

theorem strip_accentsL_eq_self {l : List Char}
    (h : ∀ c ∈ l, deaccentChar c = some c) : strip_accentsL l = l := by
  induction l with
  | nil => rfl
  | cons a t ih =>
    unfold strip_accentsL
    rw [List.filterMap_cons, h a (List.mem_cons_self a t)]
    exact congrArg (a :: ·) (ih (fun c hc => h c (List.mem_cons_of_mem a hc)))

theorem map_lowerChar_eq_self {l : List Char} (h : ∀ c ∈ l, lowerChar c = c) :
    l.map lowerChar = l := by
  induction l with
  | nil => rfl
  | cons a t ih =>
    rw [List.map_cons, h a (List.mem_cons_self a t),
      ih (fun c hc => h c (List.mem_cons_of_mem a hc))]

theorem subNW_eq_self {l : List Char} (h : ∀ c ∈ l, isWordChar c = true) :
    subNW false l = l := by
  induction l with
  | nil => rfl
  | cons a t ih =>
    unfold subNW
    rw [if_pos (h a (List.mem_cons_self a t))]
    exact congrArg (a :: ·) (ih (fun c hc => h c (List.mem_cons_of_mem a hc)))

theorem collapseU_eq_self :
    ∀ {l : List Char}, NoAdjUnd l →
      collapseU false l = l ∧ (l.head? ≠ some '_' → collapseU true l = l) := by
  intro l
  induction l with
  | nil => exact fun _ => ⟨rfl, fun _ => rfl⟩
  | cons a t ih =>
    intro h
    rw [NoAdjUnd, List.chain'_cons'] at h
    obtain ⟨hrel, htail⟩ := h
    have iht := ih htail
    by_cases ha : a = '_'
    · subst ha
      have hth : t.head? ≠ some '_' := by
        intro he
        exact hrel '_' (Option.mem_def.mpr he) ⟨rfl, rfl⟩
      constructor
      · have he : collapseU false ('_' :: t) = '_' :: collapseU true t := rfl
        rw [he]
        exact congrArg ('_' :: ·) (iht.2 hth)
      · intro hh
        exact absurd rfl hh
    · constructor
      · unfold collapseU
        rw [if_neg ha]
        exact congrArg (a :: ·) iht.1
      · intro _
        unfold collapseU
        rw [if_neg ha]
        exact congrArg (a :: ·) iht.1

theorem normalize_canon (l : List Char) :
    (∀ c ∈ normalize_headerL l, keepChar c) ∧ NoAdjUnd (normalize_headerL l) ∧
      (∀ c, (normalize_headerL l).head? = some c → isUnd c = false) ∧
      (∀ c, (normalize_headerL l).getLast? = some c → isUnd c = false) := by
  refine ⟨?_, ?_, ?_, ?_⟩
  · intro c hc
    unfold normalize_headerL at hc
    have hc4 := stripEnds_subset hc
    rcases collapseU_mem false _ c hc4 with hc3 | hund
    · rcases subNW_mem false _ c hc3 with hund | ⟨hw, hc2⟩
      · subst hund; exact keep_underscore
      · have hc1 : c ∈ (strip_accentsL l).map lowerChar := stripEnds_subset hc2
        obtain ⟨x, _, hx⟩ := List.mem_map.mp hc1
        refine ⟨hw, ?_⟩
        rw [← hx]
        exact lowerChar_not_upper x
    · subst hund; exact keep_underscore
  · unfold normalize_headerL
    exact chain'_stripEnds (collapseU_chain _).1
  · intro c hc
    exact head?_stripEnds_false hc
  · intro c hc
    exact getLast?_stripEnds_false hc

theorem normalize_headerL_idem (l : List Char) :
    normalize_headerL (normalize_headerL l) = normalize_headerL l := by
  obtain ⟨hkeep, hchain, hh, hl⟩ := normalize_canon l
  set y := normalize_headerL l with hy
  show stripEnds isUnd
    (collapseU false (subNW false (stripEnds isPySpace (List.map lowerChar (strip_accentsL y))))) = y
  rw [strip_accentsL_eq_self (fun c hc => keep_deaccent (hkeep c hc))]
  rw [map_lowerChar_eq_self (fun c hc => keep_lower (hkeep c hc))]
  rw [stripEnds_eq_self
    (fun c hc => keep_not_space (hkeep c (mem_of_head? hc)))
    (fun c hc => keep_not_space (hkeep c (mem_of_getLast? hc)))]
  rw [subNW_eq_self (fun c hc => (hkeep c hc).1)]
  rw [(collapseU_eq_self hchain).1]
  exact stripEnds_eq_self hh hl

/-- C9: `normalize_header` is idempotent, empty input yields the empty token,
and it is case- and accent-insensitive on the spec's example, normalizing
both spellings to `"libelle_operation"`. -/
theorem C9_normalize_idempotent_examples :
    (∀ s : String, normalize_header (normalize_header s) = normalize_header s) ∧
    normalize_header "" = "" ∧
    normalize_header "Libellé Opération" = "libelle_operation" ∧
    normalize_header "libelle_operation" = "libelle_operation" := by
  refine ⟨fun s => ?_, by decide, by decide, by decide⟩
  show (⟨normalize_headerL (normalize_headerL s.data)⟩ : String) =
    (⟨normalize_headerL s.data⟩ : String)
  rw [normalize_headerL_idem]

/-! ### Row conversion: reconciliation and sign invariants -/

theorem convert_row_debit_credit (get : Field → String) :
    (convert_row get).debit =
      (reconcile (absFix (parse_amount (get .debit)))
        (absFix (parse_amount (get .credit))) (get .montant)).1 ∧
    (convert_row get).credit =
      (reconcile (absFix (parse_amount (get .debit)))
        (absFix (parse_amount (get .credit))) (get .montant)).2 :=
  ⟨rfl, rfl⟩

theorem reconcile_none_none_some {m : String} {v : ℚ} (hm : m ≠ "")
    (hv : parse_amount m = some v) :
    reconcile none none m =
      if v < 0 then (some |v|, none)
      else if 0 < v then (none, some v)
      else (some 0, some 0) := by
  unfold reconcile
  rw [if_pos ⟨rfl, rfl, hm⟩, hv]

theorem reconcile_none_none_none {m : String} (hm : m ≠ "")
    (hv : parse_amount m = none) :
    reconcile none none m = (none, none) := by
  unfold reconcile
  rw [if_pos ⟨rfl, rfl, hm⟩, hv]

/-- C1: for every ingested data row in which the parsed debit and parsed
credit are both absent and the raw montant cell is non-empty, a negative
parsed amount becomes `debit = abs(value)` with credit absent, a positive one
becomes `credit = value` with debit absent, an exact zero sets both fields to
zero, and an unparseable amount leaves both fields absent. -/
theorem C1_reconciliation (get : Field → String) (v : ℚ)
    (hd : parse_amount (get .debit) = none)
    (hc : parse_amount (get .credit) = none)
    (hm : get .montant ≠ "") :
    (parse_amount (get .montant) = some v →
      ((v < 0 → (convert_row get).debit = some |v| ∧ (convert_row get).credit = none) ∧
       (0 < v → (convert_row get).credit = some v ∧ (convert_row get).debit = none) ∧
       (v = 0 → (convert_row get).debit = some 0 ∧ (convert_row get).credit = some 0))) ∧
    (parse_amount (get .montant) = none →
      (convert_row get).debit = none ∧ (convert_row get).credit = none) := by
  obtain ⟨hD, hC⟩ := convert_row_debit_credit get
  rw [hd, hc] at hD hC
  simp only [absFix] at hD hC
  constructor
  · intro hv
    have hrec := reconcile_none_none_some hm hv
    refine ⟨fun hneg => ?_, fun hpos => ?_, fun hz => ?_⟩
    · rw [if_pos hneg] at hrec
      exact ⟨by rw [hD, hrec], by rw [hC, hrec]⟩
    · have hnn : ¬v < 0 := not_lt.mpr (le_of_lt hpos)
      rw [if_neg hnn, if_pos hpos] at hrec
      exact ⟨by rw [hC, hrec], by rw [hD, hrec]⟩
    · subst hz
      rw [if_neg (lt_irrefl 0), if_neg (lt_irrefl 0)] at hrec
      exact ⟨by rw [hD, hrec], by rw [hC, hrec]⟩
  · intro hv
    have hrec := reconcile_none_none_none hm hv
    exact ⟨by rw [hD, hrec], by rw [hC, hrec]⟩

theorem parse_amount_neg50_comma : parse_amount "-50,00" = some (-50) := by
  rw [show parse_amount "-50,00" = some (ratOfParts true 50 0 2) from rfl]
  norm_num [ratOfParts]

theorem parse_amount_minus50 : parse_amount "-50" = some (-50) := by
  rw [show parse_amount "-50" = some (ratOfParts true 50 0 0) from rfl]
  norm_num [ratOfParts]

theorem C1_reconciliation_witness :
    (convert_row montantNeg50Row).debit = some 50 ∧
    (convert_row montantNeg50Row).credit = none := by
  have h :=
    ((C1_reconciliation montantNeg50Row (-50) (by rfl) (by rfl)
      (by decide)).1 parse_amount_neg50_comma).1 (by norm_num)
  refine ⟨?_, h.2⟩
  rw [h.1]
  norm_num

theorem absFix_nonneg {x : Option ℚ} {q : ℚ} (h : absFix x = some q) : 0 ≤ q := by
  cases x with
  | none => simp [absFix] at h
  | some r =>
    simp only [absFix] at h
    by_cases hr : r < 0
    · rw [if_pos hr] at h
      have hq := Option.some.inj h
      subst hq
      exact abs_nonneg r
    · rw [if_neg hr] at h
      have hq := Option.some.inj h
      subst hq
      exact le_of_not_lt hr

theorem reconcile_nonneg {a b : Option ℚ} {m : String} {d : ℚ}
    (ha : ∀ q, a = some q → 0 ≤ q) (hb : ∀ q, b = some q → 0 ≤ q)
    (h : (reconcile a b m).1 = some d ∨ (reconcile a b m).2 = some d) : 0 ≤ d := by
  unfold reconcile at h
  by_cases hcond : a = none ∧ b = none ∧ m ≠ ""
  · rw [if_pos hcond] at h
    cases hv : parse_amount m with
    | none =>
      rw [hv] at h
      rcases h with h | h
      · exact ha d h
      · exact hb d h
    | some v =>
      rw [hv] at h
      replace h :
          ((if v < 0 then ((some |v| : Option ℚ), (none : Option ℚ))
            else if 0 < v then (none, some v) else (some 0, some 0)).1 = some d ∨
           (if v < 0 then ((some |v| : Option ℚ), (none : Option ℚ))
            else if 0 < v then (none, some v) else (some 0, some 0)).2 = some d) := h
      by_cases hneg : v < 0
      · rw [if_pos hneg] at h
        rcases h with h | h
        · have := Option.some.inj h; subst this; exact abs_nonneg v
        · simp at h
      · rw [if_neg hneg] at h
        by_cases hpos : 0 < v
        · rw [if_pos hpos] at h
          rcases h with h | h
          · simp at h
          · have := Option.some.inj h; subst this; exact le_of_lt hpos
        · rw [if_neg hpos] at h
          rcases h with h | h
          · have := Option.some.inj h; subst this; exact le_refl 0
          · have := Option.some.inj h; subst this; exact le_refl 0
  · rw [if_neg hcond] at h
    rcases h with h | h
    · exact ha d h
    · exact hb d h

/-- C2 amended: every record produced by the row conversion of
`src/csv_handler.py` has a non-negative debit whenever debit is present and a
non-negative credit whenever credit is present (the `ana_budget` variant does
not satisfy this: it has no sign fixup on the dedicated columns, see the
counterexample). -/
theorem C2_amended_nonneg (get : Field → String) (d : ℚ)
    (h : (convert_row get).debit = some d ∨ (convert_row get).credit = some d) :
    0 ≤ d := by
  obtain ⟨hD, hC⟩ := convert_row_debit_credit get
  rw [hD, hC] at h
  exact reconcile_nonneg (fun q hq => absFix_nonneg hq)
    (fun q hq => absFix_nonneg hq) h

theorem convert_negDebitRow_debit : (convert_row negDebitRow).debit = some 50 := by
  obtain ⟨hD, _⟩ := convert_row_debit_credit negDebitRow
  rw [hD]
  have hd : parse_amount (negDebitRow .debit) = some (-50) := parse_amount_minus50
  rw [hd]
  have habs : absFix (some (-50 : ℚ)) = some 50 := by
    simp only [absFix]
    rw [if_pos (by norm_num : (-50 : ℚ) < 0)]
    norm_num
  rw [habs]
  have hc : parse_amount (negDebitRow .credit) = none := rfl
  rw [hc]
  simp only [absFix]
  unfold reconcile
  rw [if_neg (by simp)]

theorem C2_amended_nonneg_witness :
    (convert_row negDebitRow).debit = some 50 ∧ (0 : ℚ) ≤ 50 :=
  ⟨convert_negDebitRow_debit,
    C2_amended_nonneg negDebitRow 50 (Or.inl convert_negDebitRow_debit)⟩

/-- C2 counterexample: the `ana_budget` ingestion of a row whose dedicated
debit column holds `-50` produces a record with the negative value stored in
the debit field, so ingestion does not always yield non-negative fields. -/
theorem C2_counterexample :
    (convert_row_ana negDebitRow).debit = some (-50) ∧ ((-50 : ℚ) < 0) := by
  constructor
  · have hD : (convert_row_ana negDebitRow).debit =
        (reconcile
          (if negDebitRow .debit ≠ "" then parse_amount (negDebitRow .debit) else none)
          (if negDebitRow .credit ≠ "" then parse_amount (negDebitRow .credit) else none)
          (negDebitRow .montant)).1 := rfl
    rw [hD]
    rw [show (if negDebitRow .debit ≠ "" then parse_amount (negDebitRow .debit) else none) =
        some (-50) by rw [if_pos (by decide)]; exact parse_amount_minus50]
    rw [show (if negDebitRow .credit ≠ "" then parse_amount (negDebitRow .credit) else none) =
        none by rw [if_neg (by decide)]]
    unfold reconcile
    rw [if_neg (by simp)]
  · norm_num

/-! ### parse_amount: parenthesis negation (C8) -/

/-- C8: for every input whose trimmed form is fully wrapped in parentheses
and whose cleaned content parses as a number `q`, `parse_amount` returns
`-abs(q)` — the parenthesis flag drives the final sign even when the inner
number is already negative, so no double negation occurs. -/
theorem C8_paren_negation (s : String) (q : ℚ)
    (hp : isParenWrapped (trimPy s.data) = true)
    (hc : amountCore (((trimPy s.data).drop 1).dropLast) = some q) :
    parse_amount s = some (-|q|) := by
  have hne : trimPy s.data ≠ [] := by
    intro e
    rw [e] at hp
    simp [isParenWrapped] at hp
  show parse_amountL s.data = some (-|q|)
  unfold parse_amountL
  simp only []
  rw [if_neg hne, if_pos hp, hc]
  rfl

/-! ### Alias resolution (C4) -/

theorem find?_unique {p : String → Bool} {L D : List String} {x : String}
    (hperm : L.Perm D) (hx : x ∈ D) (hpx : p x = true)
    (huniq : ∀ a ∈ D, p a = true → a = x) :
    L.find? p = some x := by
  cases hf : L.find? p with
  | none =>
    have hnone := List.find?_eq_none.mp hf x (hperm.mem_iff.mpr hx)
    rw [hpx] at hnone
    exact absurd rfl hnone
  | some y =>
    have h1 := List.find?_some hf
    have h2 := List.mem_of_find?_eq_some hf
    rw [huniq y (hperm.mem_iff.mp h2) h1]

/-- C4 amended: alias resolution picks, for each logical field, some alias of
the field's set whose normalized form is among the file's normalized headers
— which one depends on the runtime iteration order of the Python `set`, not
on the table's declaration order.  When exactly one alias of a field matches
the headers the result is the same for every iteration order; in particular,
for the headers `["Date Valeur", "Montant"]` (in either order) booking date
resolves to `date_valeur` and amount to `montant` under every valid
enumeration order. -/
theorem C4_amended_resolution (order : Field → List String) (h : ValidEnum order) :
    map_headers_to_fields order specExampleHeaders .date_comptabilisation =
      some "date_valeur" ∧
    map_headers_to_fields order specExampleHeaders .montant = some "montant" ∧
    map_headers_to_fields order specExampleHeaders.reverse .date_comptabilisation =
      some "date_valeur" ∧
    map_headers_to_fields order specExampleHeaders.reverse .montant = some "montant" := by
  refine ⟨?_, ?_, ?_, ?_⟩
  · unfold map_headers_to_fields
    rw [find?_unique (h .date_comptabilisation) (show "date_valeur" ∈
        aliasDecl .date_comptabilisation by decide) (by decide)
      (by intro a ha hpa; fin_cases ha <;> revert hpa <;> decide)]
    decide
  · unfold map_headers_to_fields
    rw [find?_unique (h .montant) (show "montant" ∈ aliasDecl .montant by decide)
      (by decide) (by intro a ha hpa; fin_cases ha <;> revert hpa <;> decide)]
    decide
  · unfold map_headers_to_fields
    rw [find?_unique (h .date_comptabilisation) (show "date_valeur" ∈
        aliasDecl .date_comptabilisation by decide) (by decide)
      (by intro a ha hpa; fin_cases ha <;> revert hpa <;> decide)]
    decide
  · unfold map_headers_to_fields
    rw [find?_unique (h .montant) (show "montant" ∈ aliasDecl .montant by decide)
      (by decide) (by intro a ha hpa; fin_cases ha <;> revert hpa <;> decide)]
    decide

theorem C4_amended_resolution_witness :
    map_headers_to_fields aliasDecl specExampleHeaders .date_comptabilisation =
      some "date_valeur" ∧
    map_headers_to_fields aliasDecl specExampleHeaders .montant = some "montant" :=
  ⟨(C4_amended_resolution aliasDecl (fun _ => List.Perm.refl _)).1,
   (C4_amended_resolution aliasDecl (fun _ => List.Perm.refl _)).2.1⟩

/-- C4 counterexample: the reversed enumeration of the alias sets is a valid
`set` iteration order, and on the normalized headers `["date", "date_valeur"]`
it resolves the booking date to `date_valeur` while declaration order would
resolve it to `date` — so the resolution implemented over Python `set`s is
not the declaration-order resolution the claim describes. -/
theorem C4_counterexample :
    ValidEnum revAliasOrder ∧
    map_headers_to_fields revAliasOrder twoDateHeaders .date_comptabilisation =
      some "date_valeur" ∧
    map_headers_to_fields aliasDecl twoDateHeaders .date_comptabilisation =
      some "date" := by
  refine ⟨fun f => (aliasDecl f).reverse_perm, by decide, by decide⟩

/-! ### Ingestion loop (C5, C6) -/

theorem ingestRows_cons_row (fieldMap : Field → Option String) (cells : RawRow)
    (extra : List String) (rest : List ReaderItem) (idx : ℕ) :
    ingestRows fieldMap idx (ReaderItem.row cells extra :: rest) =
      if extra = [] then
        match ingestRows fieldMap (idx + 1) rest with
        | .ok ops => .ok (convert_row (getValueOf fieldMap cells) :: ops)
        | .error err => .error err
      else .error (.rowError idx cells extra restkeyErrorMsg) := rfl

theorem ingestRows_reader_error (fieldMap : Field → Option String)
    (msg : String) (rest : List ReaderItem) :
    ∀ (rows : List RawRow) (idx : ℕ),
      ingestRows fieldMap idx
          (rows.map (fun r => ReaderItem.row r []) ++ ReaderItem.failed msg :: rest) =
        .error (.readerFailure msg) := by
  intro rows
  induction rows with
  | nil => intro idx; rfl
  | cons r rs ih =>
    intro idx
    rw [List.map_cons, List.cons_append, ingestRows_cons_row, if_pos rfl,
      ih (idx + 1)]

theorem ingestRows_row_error (fieldMap : Field → Option String) (cells : RawRow)
    (extra : List String) (hex : extra ≠ []) (rest : List ReaderItem) :
    ∀ (rows : List RawRow) (idx : ℕ),
      ingestRows fieldMap idx
          (rows.map (fun r => ReaderItem.row r []) ++ ReaderItem.row cells extra :: rest) =
        .error (.rowError (idx + rows.length) cells extra restkeyErrorMsg) := by
  intro rows
  induction rows with
  | nil =>
    intro idx
    rw [List.map_nil, List.nil_append, ingestRows_cons_row, if_neg hex]
    simp
  | cons r rs ih =>
    intro idx
    rw [List.map_cons, List.cons_append, ingestRows_cons_row, if_pos rfl,
      ih (idx + 1)]
    show Except.error (IngestError.rowError (idx + 1 + rs.length) cells extra
      restkeyErrorMsg) = _
    rw [List.length_cons, show idx + (rs.length + 1) = idx + 1 + rs.length by omega]

/-- C5 (amended): an exception while converting a yielded data row — which
happens exactly on an overlong row, where the normalization comprehension
raises `AttributeError` on the `restkey` list of extra cells — aborts the
ingestion with a row-addressed error naming the correct 1-based row number
(header = row 1, first yielded data row = row 2) and carrying the raw-row
preview, and no partial record list is returned; a failure of the row reader
itself, however, escapes the `for` statement outside the per-row `try`, so it
aborts the ingestion unwrapped, with no row number and no preview (and
likewise no partial record list). -/
theorem C5_amended_row_and_reader_errors (fieldMap : Field → Option String)
    (rows : List RawRow) (rest : List ReaderItem) :
    (∀ (cells : RawRow) (extra : List String), extra ≠ [] →
      import_operations_rows fieldMap
          (rows.map (fun r => ReaderItem.row r []) ++
            ReaderItem.row cells extra :: rest) =
        .error (.rowError (2 + rows.length) cells extra restkeyErrorMsg)) ∧
    (∀ msg : String,
      import_operations_rows fieldMap
          (rows.map (fun r => ReaderItem.row r []) ++
            ReaderItem.failed msg :: rest) =
        .error (.readerFailure msg)) :=
  ⟨fun cells extra hex => ingestRows_row_error fieldMap cells extra hex rest rows 2,
    fun msg => ingestRows_reader_error fieldMap msg rest rows 2⟩

/-- C5 witness: a single overlong data row (one extra cell) aborts the import
with the row-addressed error at row 2 carrying that row as preview. -/
theorem C5_amended_row_and_reader_errors_witness :
    (["x"] : List String) ≠ [] ∧
    import_operations_rows emptyFieldMap [ReaderItem.row rowMontant10 ["x"]] =
      .error (.rowError 2 rowMontant10 ["x"] restkeyErrorMsg) :=
  ⟨by decide,
    (C5_amended_row_and_reader_errors emptyFieldMap [] []).1 rowMontant10 ["x"]
      (by decide)⟩

/-- C5 counterexample: a reader failure on the first data row (for example a
NUL byte making `_csv.Error` escape from the `for` statement) aborts the
ingestion with an error that is not row-addressed: it is the bare reader
exception, with no row number and no preview, contradicting the claim that
any ingestion-aborting exception — including a failure of the row reader
itself — surfaces a row-addressed error. -/
theorem C5_counterexample :
    import_operations_rows emptyFieldMap [ReaderItem.failed "line contains NUL"] =
      .error (.readerFailure "line contains NUL") ∧
    isRowAddressed
      (import_operations_rows emptyFieldMap [ReaderItem.failed "line contains NUL"]) =
      false :=
  ⟨rfl, rfl⟩

theorem ingestRows_cases (fieldMap : Field → Option String) :
    ∀ (items : List ReaderItem) (idx : ℕ),
      (∀ ops, ingestRows fieldMap idx items = .ok ops →
        ops = (yieldedRows items).map (fun r => convert_row (getValueOf fieldMap r))) ∧
      (∀ e, ingestRows fieldMap idx items = .error e →
        (∃ msg, e = .readerFailure msg ∧ ReaderItem.failed msg ∈ items) ∨
        (∃ i cells extra, e = .rowError i cells extra restkeyErrorMsg ∧
          extra ≠ [] ∧ ReaderItem.row cells extra ∈ items)) := by
  intro items
  induction items with
  | nil =>
    intro idx
    constructor
    · intro ops hops
      have h : (Except.ok [] : Except IngestError (List OperationBancaire)) =
        .ok ops := hops
      cases h
      rfl
    · intro e he
      cases he
  | cons item rest ih =>
    intro idx
    cases item with
    | failed e0 =>
      constructor
      · intro ops hops
        cases hops
      · intro e he
        have h : (Except.error (.readerFailure e0) :
            Except IngestError (List OperationBancaire)) = .error e := he
        have h2 := Except.error.inj h
        exact Or.inl ⟨e0, h2.symm, List.mem_cons_self _ _⟩
    | blank =>
      have hstep : ingestRows fieldMap idx (ReaderItem.blank :: rest) =
          ingestRows fieldMap idx rest := rfl
      constructor
      · intro ops hops
        rw [hstep] at hops
        rw [(ih idx).1 ops hops]
        rfl
      · intro e he
        rw [hstep] at he
        rcases (ih idx).2 e he with ⟨msg, h1, h2⟩ | ⟨i, cells, extra, h1, h2, h3⟩
        · exact Or.inl ⟨msg, h1, List.mem_cons_of_mem _ h2⟩
        · exact Or.inr ⟨i, cells, extra, h1, h2, List.mem_cons_of_mem _ h3⟩
    | row cells0 extra0 =>
      by_cases hE : extra0 = []
      · subst hE
        constructor
        · intro ops hops
          rw [ingestRows_cons_row, if_pos rfl] at hops
          cases hrec : ingestRows fieldMap (idx + 1) rest with
          | ok ops2 =>
            rw [hrec] at hops
            cases hops
            rw [(ih (idx + 1)).1 ops2 hrec]
            rfl
          | error err =>
            rw [hrec] at hops
            cases hops
        · intro e he
          rw [ingestRows_cons_row, if_pos rfl] at he
          cases hrec : ingestRows fieldMap (idx + 1) rest with
          | ok ops2 =>
            rw [hrec] at he
            cases he
          | error err =>
            rw [hrec] at he
            have h2 : err = e := Except.error.inj he
            rcases (ih (idx + 1)).2 err hrec with ⟨msg, h1, hm⟩ |
              ⟨i, c2, x2, h1, hx, hm⟩
            · refine Or.inl ⟨msg, ?_, List.mem_cons_of_mem _ hm⟩
              rw [← h2]
              exact h1
            · refine Or.inr ⟨i, c2, x2, ?_, hx, List.mem_cons_of_mem _ hm⟩
              rw [← h2]
              exact h1
      · constructor
        · intro ops hops
          rw [ingestRows_cons_row, if_neg hE] at hops
          cases hops
        · intro e he
          rw [ingestRows_cons_row, if_neg hE] at he
          have h2 := Except.error.inj he
          exact Or.inr ⟨idx, cells0, extra0, h2.symm, hE, List.mem_cons_self _ _⟩

/-- C6 (amended): whenever ingestion succeeds, the returned sequence contains
exactly one record per yielded source data row, converted in source-row order
with nothing else dropped — but blank physical rows are skipped silently by
`DictReader` and produce no record.  Whenever ingestion aborts, no record
list is returned, and the aborting error is either the bare exception of a
reader-level failure (not row-addressed) or the row-addressed error of an
overlong row, the one kind of row whose conversion raises. -/
theorem C6_amended_one_record_per_row (fieldMap : Field → Option String)
    (items : List ReaderItem) :
    (∀ ops, import_operations_rows fieldMap items = .ok ops →
      ops = (yieldedRows items).map (fun r => convert_row (getValueOf fieldMap r))) ∧
    (∀ e, import_operations_rows fieldMap items = .error e →
      (∃ msg, e = .readerFailure msg ∧ ReaderItem.failed msg ∈ items) ∨
      (∃ i cells extra, e = .rowError i cells extra restkeyErrorMsg ∧
        extra ≠ [] ∧ ReaderItem.row cells extra ∈ items)) :=
  ingestRows_cases fieldMap items 2

/-- C6 witness: a blank physical row followed by one yielded data row imports
to exactly one record — the conversion of the yielded row, the blank row
contributing nothing. -/
theorem C6_amended_one_record_per_row_witness :
    [convert_row (getValueOf emptyFieldMap rowMontant10)] =
      (yieldedRows [ReaderItem.blank, ReaderItem.row rowMontant10 []]).map
        (fun r => convert_row (getValueOf emptyFieldMap r)) :=
  (C6_amended_one_record_per_row emptyFieldMap
      [ReaderItem.blank, ReaderItem.row rowMontant10 []]).1
    [convert_row (getValueOf emptyFieldMap rowMontant10)] rfl

/-- C6 counterexample: a file whose reader fails after one good row aborts
the import with the bare reader error, which is not row-addressed — so the
claim clause that a non-converting import always aborts with a row-addressed
error fails on reader-level failures. -/
theorem C6_counterexample :
    import_operations_rows emptyFieldMap
        [ReaderItem.row rowMontant10 [], ReaderItem.failed "bad row"] =
      .error (.readerFailure "bad row") ∧
    isRowAddressed
      (import_operations_rows emptyFieldMap
        [ReaderItem.row rowMontant10 [], ReaderItem.failed "bad row"]) = false :=
  ⟨rfl, rfl⟩

/-! ### Date and amount parser totality (C7) -/

/-- C7 amended: `parse_date` and `parse_amount` are total functions (modelled
directly as such: no exception path exists).  `parse_date` returns the empty
string on blank input and, when no format, truncation retry or ISO fallback
matches, returns the whitespace-trimmed input — not the original raw string
verbatim, which differs when the input has leading or trailing whitespace.
`parse_amount` returns `none` on blank input, and every failure yields `none`
rather than an exception. -/
theorem C7_amended_parser_totality (s : String) :
    (pyStrip s = "" → parse_date s = "") ∧
    (parse_dateCore (trimPy s.data) = none → parse_date s = pyStrip s) ∧
    (pyStrip s = "" → parse_amount s = none) ∧
    (parse_amount s = none ∨ ∃ q, parse_amount s = some q) := by
  have hdata : ∀ t : String, pyStrip t = "" → trimPy t.data = [] := by
    intro t ht
    have := congrArg String.data ht
    exact this
  refine ⟨?_, ?_, ?_, ?_⟩
  · intro hs
    show (⟨parse_dateL s.data⟩ : String) = ⟨[]⟩
    unfold parse_dateL
    rw [if_pos (hdata s hs)]
  · intro hcore
    show (⟨parse_dateL s.data⟩ : String) = ⟨trimPy s.data⟩
    unfold parse_dateL
    by_cases he : trimPy s.data = []
    · rw [if_pos he, he]
    · rw [if_neg he, hcore]
  · intro hs
    show parse_amountL s.data = none
    unfold parse_amountL
    rw [if_pos (hdata s hs)]
  · cases h : parse_amount s with
    | none => exact Or.inl rfl
    | some q => exact Or.inr ⟨q, rfl⟩

theorem C7_amended_parser_totality_witness :
    parse_date "   " = "" ∧ parse_amount "   " = none ∧ parse_date " abc2" = "abc2" :=
  ⟨(C7_amended_parser_totality "   ").1 rfl,
   (C7_amended_parser_totality "   ").2.2.1 rfl,
   (C7_amended_parser_totality " abc2").2.1 (by decide)⟩

/-- C7 counterexample: on an unparseable date with leading whitespace the
function returns the trimmed string, not the original raw string unmodified:
`parse_date " abc" = "abc" ≠ " abc"` even though no parse attempt matches. -/
theorem C7_counterexample :
    parse_dateCore (trimPy " abc".data) = none ∧
    parse_date " abc" ≠ " abc" ∧ parse_date " abc" = "abc" :=
  ⟨by decide, by decide, by decide⟩

theorem C8_paren_negation_witness :
    parse_amount "(12,30)" = some (-|(123 : ℚ) / 10|) :=
  C8_paren_negation "(12,30)" (123 / 10) (by decide)
    (by
      rw [show amountCore (((trimPy "(12,30)".data).drop 1).dropLast) =
          some (ratOfParts false 12 30 2) from rfl]
      norm_num [ratOfParts])

/-! ### Date parser agreement (C10) -/

theorem oalt_none_right (a : Option PyDate) : oalt a none = a := by
  cases a <;> rfl

theorem takeWhile_eq_self {p : Char → Bool} {l : List Char}
    (h : ∀ c ∈ l, p c = true) : l.takeWhile p = l := by
  induction l with
  | nil => rfl
  | cons a t ih =>
    rw [List.takeWhile_cons, if_pos (h a (List.mem_cons_self a t))]
    exact congrArg (a :: ·) (ih fun c hc => h c (List.mem_cons_of_mem a hc))

theorem takeWhile_append_all {p : Char → Bool} {A B : List Char}
    (h : ∀ c ∈ A, p c = true) : (A ++ B).takeWhile p = A ++ B.takeWhile p := by
  induction A with
  | nil => rfl
  | cons a t ih =>
    rw [List.cons_append, List.takeWhile_cons, if_pos (h a (List.mem_cons_self a t))]
    exact congrArg (a :: ·) (ih fun c hc => h c (List.mem_cons_of_mem a hc))

theorem digit_pred_sT {c : Char} (h : isDigitChar c = true) :
    decide (c ≠ ' ' ∧ c ≠ 'T') = true := by
  apply decide_eq_true
  refine ⟨fun he => ?_, fun he => ?_⟩ <;> (subst he; exact absurd h (by decide))

theorem isoTail_pred_sT {c : Char} (h : isoTailChar c = true) :
    decide (c ≠ ' ' ∧ c ≠ 'T') = true := by
  apply decide_eq_true
  refine ⟨fun he => ?_, fun he => ?_⟩ <;> (subst he; exact absurd h (by decide))

theorem digit_ne {c x : Char} (h : isDigitChar c = true) (hx : isDigitChar x = false) :
    c ≠ x := by
  intro he
  rw [he, hx] at h
  exact Bool.noConfusion h

theorem splitOnChar_cons (c x : Char) (rest : List Char) :
    splitOnChar c (x :: rest) =
      if x = c then [] :: splitOnChar c rest
      else
        match splitOnChar c rest with
        | h :: t => (x :: h) :: t
        | [] => [[x]] := rfl

theorem splitOnChar_cons_shape {x c : Char} (rest : List Char) (h : x ≠ c) :
    ∃ hh tt, splitOnChar c (x :: rest) = (x :: hh) :: tt := by
  cases hsp : splitOnChar c rest with
  | nil =>
    refine ⟨[], [], ?_⟩
    rw [splitOnChar_cons, if_neg h, hsp]
  | cons h0 t0 =>
    refine ⟨h0, t0, ?_⟩
    rw [splitOnChar_cons, if_neg h, hsp]

theorem splitOnChar_not_mem {c : Char} {l : List Char} (h : ∀ x ∈ l, x ≠ c) :
    splitOnChar c l = [l] := by
  induction l with
  | nil => rfl
  | cons a t ih =>
    rw [splitOnChar_cons, if_neg (h a (List.mem_cons_self a t)),
      ih (fun x hx => h x (List.mem_cons_of_mem a hx))]

theorem splitOnChar_append {c : Char} {A B : List Char} (h : ∀ x ∈ A, x ≠ c) :
    splitOnChar c (A ++ c :: B) = A :: splitOnChar c B := by
  induction A with
  | nil =>
    show splitOnChar c (c :: B) = [] :: splitOnChar c B
    rw [splitOnChar_cons, if_pos rfl]
  | cons a t ih =>
    show splitOnChar c (a :: (t ++ c :: B)) = (a :: t) :: splitOnChar c B
    rw [splitOnChar_cons, if_neg (h a (List.mem_cons_self a t)),
      ih (fun x hx => h x (List.mem_cons_of_mem a hx))]

theorem parse2_eval {l : List Char} (h1 : l ≠ []) (h2 : l.length ≤ 2)
    (h3 : l.all isDigitChar = true) : parse2 l = some (natVal l) := by
  unfold parse2
  rw [if_pos ⟨h1, h2, h3⟩]

theorem parse4_eval {l : List Char} (h1 : l.length = 4)
    (h2 : l.all isDigitChar = true) : parse4 l = some (natVal l) := by
  unfold parse4
  rw [if_pos ⟨h1, h2⟩]

theorem parse2_head_not_digit {x : Char} {t : List Char}
    (hx : isDigitChar x = false) : parse2 (x :: t) = none := by
  unfold parse2
  rw [if_neg]
  intro hcond
  obtain ⟨_, _, hall⟩ := hcond
  rw [List.all_cons, hx] at hall
  exact Bool.noConfusion hall

theorem parse4_head_not_digit {x : Char} {t : List Char}
    (hx : isDigitChar x = false) : parse4 (x :: t) = none := by
  unfold parse4
  rw [if_neg]
  intro hcond
  obtain ⟨_, hall⟩ := hcond
  rw [List.all_cons, hx] at hall
  exact Bool.noConfusion hall

theorem tryDMY_head_bad {sep x : Char} {rest : List Char}
    (hx : isDigitChar x = false) (hsep : x ≠ sep) : tryDMY sep (x :: rest) = none := by
  obtain ⟨hh, tt, hsp⟩ := splitOnChar_cons_shape rest hsep
  unfold tryDMY
  rw [hsp]
  rcases tt with _ | ⟨b, _ | ⟨c0, _ | ⟨d0, tt'⟩⟩⟩
  · rfl
  · rfl
  · show (match parse2 (x :: hh), parse2 b, parse4 c0 with
      | some d, some m, some y => mkDate y m d
      | _, _, _ => none) = none
    rw [parse2_head_not_digit hx]
  · rfl

theorem tryYMD_head_bad {sep x : Char} {rest : List Char}
    (hx : isDigitChar x = false) (hsep : x ≠ sep) : tryYMD sep (x :: rest) = none := by
  obtain ⟨hh, tt, hsp⟩ := splitOnChar_cons_shape rest hsep
  unfold tryYMD
  rw [hsp]
  rcases tt with _ | ⟨b, _ | ⟨c0, _ | ⟨d0, tt'⟩⟩⟩
  · rfl
  · rfl
  · show (match parse4 (x :: hh), parse2 b, parse2 c0 with
      | some y, some m, some dd => mkDate y m dd
      | _, _, _ => none) = none
    rw [parse4_head_not_digit hx]
  · rfl

theorem spaceParts_head_bad {x : Char} (rest : List Char) (hsp : x ≠ ' ') :
    ∃ hh tt, spaceParts (x :: rest) = (x :: hh) :: tt := by
  obtain ⟨hh, tt, h⟩ := splitOnChar_cons_shape rest hsp
  refine ⟨hh, tt.filter (fun p => p ≠ []), ?_⟩
  unfold spaceParts
  rw [h, List.filter_cons_of_pos (by simp)]

theorem tryDMYspace_head_bad {x : Char} {rest : List Char}
    (hx : isDigitChar x = false) (hsp : x ≠ ' ') : tryDMYspace (x :: rest) = none := by
  obtain ⟨hh, tt, h⟩ := spaceParts_head_bad rest hsp
  unfold tryDMYspace
  rw [h]
  rcases tt with _ | ⟨b, _ | ⟨c0, _ | ⟨d0, tt'⟩⟩⟩
  · rfl
  · rfl
  · show (match parse2 (x :: hh), parse2 b, parse4 c0 with
      | some dd, some m, some y => mkDate y m dd
      | _, _, _ => none) = none
    rw [parse2_head_not_digit hx]
  · rfl

theorem tryDNameY_head_bad (tbl : List (List Char)) {x : Char} {rest : List Char}
    (hx : isDigitChar x = false) (hsp : x ≠ ' ') :
    tryDNameY tbl (x :: rest) = none := by
  obtain ⟨hh, tt, h⟩ := spaceParts_head_bad rest hsp
  unfold tryDNameY
  rw [h]
  rcases tt with _ | ⟨b, _ | ⟨c0, _ | ⟨d0, tt'⟩⟩⟩
  · rfl
  · rfl
  · show (match parse2 (x :: hh), monthFromName tbl b, parse4 c0 with
      | some dd, some m, some y => mkDate y m dd
      | _, _, _ => none) = none
    rw [parse2_head_not_digit hx]
  · rfl

theorem fmtFirst_head_bad {x : Char} {rest : List Char} (hx : isDigitChar x = false)
    (h1 : x ≠ '/') (h2 : x ≠ '-') (h3 : x ≠ '.') (h4 : x ≠ ' ') :
    fmtFirst (x :: rest) = none := by
  unfold fmtFirst
  rw [tryDMY_head_bad hx h1, tryYMD_head_bad hx h2, tryDMY_head_bad hx h2,
    tryDMY_head_bad hx h3, tryDMYspace_head_bad hx h4,
    tryDNameY_head_bad monthAbbrevs hx h4, tryDNameY_head_bad monthFulls hx h4,
    tryYMD_head_bad hx h1]
  rfl

theorem parseIsoDate10_some {l : List Char} {d : PyDate}
    (h : parseIsoDate10 l = some d) :
    ∃ y1 y2 y3 y4 m1 m2 d1 d2,
      l = [y1, y2, y3, y4, '-', m1, m2, '-', d1, d2] ∧
      ([y1, y2, y3, y4, m1, m2, d1, d2]).all isDigitChar = true ∧
      mkDate (natVal [y1, y2, y3, y4]) (natVal [m1, m2]) (natVal [d1, d2]) = some d := by
  rcases l with _ | ⟨y1, _ | ⟨y2, _ | ⟨y3, _ | ⟨y4, _ | ⟨s1, _ | ⟨m1, _ | ⟨m2, _ |
    ⟨s2, _ | ⟨d1, _ | ⟨d2, _ | ⟨e1, tl⟩⟩⟩⟩⟩⟩⟩⟩⟩⟩⟩
  all_goals try exact Option.noConfusion h
  replace h :
      (if s1 = '-' ∧ s2 = '-' ∧ ([y1, y2, y3, y4, m1, m2, d1, d2]).all isDigitChar = true
        then mkDate (natVal [y1, y2, y3, y4]) (natVal [m1, m2]) (natVal [d1, d2])
        else none) = some d := h
  by_cases hcond : s1 = '-' ∧ s2 = '-' ∧
      ([y1, y2, y3, y4, m1, m2, d1, d2]).all isDigitChar = true
  · rw [if_pos hcond] at h
    obtain ⟨hs1, hs2, hall⟩ := hcond
    subst hs1
    subst hs2
    exact ⟨y1, y2, y3, y4, m1, m2, d1, d2, rfl, hall, h⟩
  · rw [if_neg hcond] at h
    exact Option.noConfusion h

theorem fromiso_head_not_digit {x : Char} {rest : List Char}
    (hx : isDigitChar x = false) : fromisoformat (x :: rest) = none := by
  cases h : fromisoformat (x :: rest) with
  | none => rfl
  | some d =>
    exfalso
    unfold fromisoformat at h
    by_cases h10 : (x :: rest).length = 10
    · rw [if_pos h10] at h
      obtain ⟨y1, y2, y3, y4, m1, m2, d1, d2, hshape, hall, _⟩ := parseIsoDate10_some h
      have hxy : x = y1 := by
        have := congrArg List.head? hshape
        simpa using this
      rw [List.all_cons, ← hxy, hx] at hall
      exact Bool.noConfusion hall
    · rw [if_neg h10] at h
      by_cases hgt : 10 < (x :: rest).length
      · rw [if_pos hgt] at h
        by_cases htl : ((x :: rest).drop 11) ≠ [] ∧
            ((x :: rest).drop 11).all isoTailChar = true
        · rw [if_pos htl] at h
          obtain ⟨y1, y2, y3, y4, m1, m2, d1, d2, hshape, hall, _⟩ :=
            parseIsoDate10_some h
          rw [show (x :: rest).take 10 = x :: rest.take 9 from rfl] at hshape
          have hxy : x = y1 := by
            have := congrArg List.head? hshape
            simpa using this
          rw [List.all_cons, ← hxy, hx] at hall
          exact Bool.noConfusion hall
        · rw [if_neg htl] at h
          exact Option.noConfusion h
      · rw [if_neg hgt] at h
        exact Option.noConfusion h

theorem fmtFirst_iso {y1 y2 y3 y4 m1 m2 d1 d2 : Char} {d : PyDate}
    (hy1 : isDigitChar y1 = true) (hy2 : isDigitChar y2 = true)
    (hy3 : isDigitChar y3 = true) (hy4 : isDigitChar y4 = true)
    (hm1 : isDigitChar m1 = true) (hm2 : isDigitChar m2 = true)
    (hd1 : isDigitChar d1 = true) (hd2 : isDigitChar d2 = true)
    (hmk : mkDate (natVal [y1, y2, y3, y4]) (natVal [m1, m2]) (natVal [d1, d2]) =
      some d) :
    fmtFirst [y1, y2, y3, y4, '-', m1, m2, '-', d1, d2] = some d := by
  have hslash : tryDMY '/' [y1, y2, y3, y4, '-', m1, m2, '-', d1, d2] = none := by
    unfold tryDMY
    rw [splitOnChar_not_mem ?hmem]
    case hmem =>
      intro x hx
      simp only [List.mem_cons, List.not_mem_nil, or_false] at hx
      rcases hx with rfl | rfl | rfl | rfl | rfl | rfl | rfl | rfl | rfl | rfl
      · exact digit_ne hy1 (by decide)
      · exact digit_ne hy2 (by decide)
      · exact digit_ne hy3 (by decide)
      · exact digit_ne hy4 (by decide)
      · decide
      · exact digit_ne hm1 (by decide)
      · exact digit_ne hm2 (by decide)
      · decide
      · exact digit_ne hd1 (by decide)
      · exact digit_ne hd2 (by decide)
  have hymd : tryYMD '-' [y1, y2, y3, y4, '-', m1, m2, '-', d1, d2] = some d := by
    unfold tryYMD
    have e1 : [y1, y2, y3, y4, '-', m1, m2, '-', d1, d2] =
        [y1, y2, y3, y4] ++ '-' :: ([m1, m2] ++ '-' :: [d1, d2]) := rfl
    have hsp : splitOnChar '-' [y1, y2, y3, y4, '-', m1, m2, '-', d1, d2] =
        [[y1, y2, y3, y4], [m1, m2], [d1, d2]] := by
      rw [e1, splitOnChar_append ?h1, splitOnChar_append ?h2, splitOnChar_not_mem ?h3]
      case h1 =>
        intro x hx
        simp only [List.mem_cons, List.not_mem_nil, or_false] at hx
        rcases hx with rfl | rfl | rfl | rfl
        · exact digit_ne hy1 (by decide)
        · exact digit_ne hy2 (by decide)
        · exact digit_ne hy3 (by decide)
        · exact digit_ne hy4 (by decide)
      case h2 =>
        intro x hx
        simp only [List.mem_cons, List.not_mem_nil, or_false] at hx
        rcases hx with rfl | rfl
        · exact digit_ne hm1 (by decide)
        · exact digit_ne hm2 (by decide)
      case h3 =>
        intro x hx
        simp only [List.mem_cons, List.not_mem_nil, or_false] at hx
        rcases hx with rfl | rfl
        · exact digit_ne hd1 (by decide)
        · exact digit_ne hd2 (by decide)
    rw [hsp]
    show (match parse4 [y1, y2, y3, y4], parse2 [m1, m2], parse2 [d1, d2] with
      | some y, some m, some dd => mkDate y m dd
      | _, _, _ => none) = some d
    rw [parse4_eval (by simp) (by simp [hy1, hy2, hy3, hy4]),
      parse2_eval (by simp) (by simp) (by simp [hm1, hm2]),
      parse2_eval (by simp) (by simp) (by simp [hd1, hd2])]
    exact hmk
  unfold fmtFirst
  rw [hslash, hymd]
  rfl

theorem fromiso_trunc {v : List Char} {d : PyDate}
    (hiso : fromisoformat v = some d) (hne : truncAtST v ≠ v) :
    fmtFirst (truncAtST v) = some d := by
  unfold fromisoformat at hiso
  by_cases h10 : v.length = 10
  · rw [if_pos h10] at hiso
    obtain ⟨y1, y2, y3, y4, m1, m2, d1, d2, hshape, hall, hmk⟩ :=
      parseIsoDate10_some hiso
    exfalso
    apply hne
    rw [hshape]
    apply takeWhile_eq_self
    intro c hc
    simp only [List.all_cons, List.all_nil, Bool.and_true, Bool.and_eq_true] at hall
    obtain ⟨hy1, hy2, hy3, hy4, hm1, hm2, hd1, hd2⟩ := hall
    simp only [List.mem_cons, List.not_mem_nil, or_false] at hc
    rcases hc with rfl | rfl | rfl | rfl | rfl | rfl | rfl | rfl | rfl | rfl
    · exact digit_pred_sT hy1
    · exact digit_pred_sT hy2
    · exact digit_pred_sT hy3
    · exact digit_pred_sT hy4
    · decide
    · exact digit_pred_sT hm1
    · exact digit_pred_sT hm2
    · decide
    · exact digit_pred_sT hd1
    · exact digit_pred_sT hd2
  · rw [if_neg h10] at hiso
    by_cases hgt : 10 < v.length
    · rw [if_pos hgt] at hiso
      by_cases htl : v.drop 11 ≠ [] ∧ (v.drop 11).all isoTailChar = true
      · rw [if_pos htl] at hiso
        obtain ⟨y1, y2, y3, y4, m1, m2, d1, d2, hshape, hall, hmk⟩ :=
          parseIsoDate10_some hiso
        simp only [List.all_cons, List.all_nil, Bool.and_true, Bool.and_eq_true] at hall
        obtain ⟨hy1, hy2, hy3, hy4, hm1, hm2, hd1, hd2⟩ := hall
        have hd10 : v.drop 10 ≠ [] := by
          intro e
          have hlen := congrArg List.length e
          rw [List.length_drop] at hlen
          simp at hlen
          omega
        obtain ⟨sep, tl, hsep⟩ : ∃ sep tl, v.drop 10 = sep :: tl := by
          cases hd : v.drop 10 with
          | nil => exact absurd hd hd10
          | cons a b => exact ⟨a, b, rfl⟩
        have htl11 : tl = v.drop 11 := by
          have h1 : v.drop 11 = (v.drop 10).tail := (List.tail_drop v 10).symm
          rw [h1, hsep]
          rfl
        have hv : v = v.take 10 ++ sep :: tl := by
          rw [← hsep]
          exact (List.take_append_drop 10 v).symm
        have htake_pred : ∀ c ∈ v.take 10,
            (fun c => decide (c ≠ ' ' ∧ c ≠ 'T')) c = true := by
          intro c hc
          rw [hshape] at hc
          simp only [List.mem_cons, List.not_mem_nil, or_false] at hc
          rcases hc with rfl | rfl | rfl | rfl | rfl | rfl | rfl | rfl | rfl | rfl
          · exact digit_pred_sT hy1
          · exact digit_pred_sT hy2
          · exact digit_pred_sT hy3
          · exact digit_pred_sT hy4
          · decide
          · exact digit_pred_sT hm1
          · exact digit_pred_sT hm2
          · decide
          · exact digit_pred_sT hd1
          · exact digit_pred_sT hd2
        have htl_pred : ∀ c ∈ tl, (fun c => decide (c ≠ ' ' ∧ c ≠ 'T')) c = true := by
          intro c hc
          refine isoTail_pred_sT ?_
          have hc' : c ∈ v.drop 11 := htl11 ▸ hc
          exact List.all_eq_true.mp htl.2 c hc'
        by_cases hsepP : decide (sep ≠ ' ' ∧ sep ≠ 'T') = true
        · exfalso
          apply hne
          show (v.takeWhile fun c => decide (c ≠ ' ' ∧ c ≠ 'T')) = v
          conv_lhs => rw [hv]
          rw [takeWhile_append_all htake_pred, List.takeWhile_cons, if_pos hsepP,
            takeWhile_eq_self htl_pred, ← hv]
        · have hsh : truncAtST v = v.take 10 := by
            show (v.takeWhile fun c => decide (c ≠ ' ' ∧ c ≠ 'T')) = v.take 10
            conv_lhs => rw [hv]
            rw [takeWhile_append_all htake_pred, List.takeWhile_cons,
              if_neg hsepP, List.append_nil]
          rw [hsh, hshape]
          exact fmtFirst_iso hy1 hy2 hy3 hy4 hm1 hm2 hd1 hd2 hmk
      · rw [if_neg htl] at hiso
        exact Option.noConfusion hiso
    · rw [if_neg hgt] at hiso
      exact Option.noConfusion hiso

theorem dateCores_agree (v : List Char)
    (hhead : ∀ c, v.head? = some c → isPySpace c = false) :
    parse_dateAnaCore v = parse_dateCore v ∧
    parse_dateFixedCore v = parse_dateCore v := by
  simp only [parse_dateCore, parse_dateAnaCore, parse_dateFixedCore]
  cases hf : fmtFirst v with
  | some d => exact ⟨rfl, rfl⟩
  | none =>
    by_cases hsv : truncAtST v = v
    · rw [hsv, if_neg (by simp), if_neg (by simp)]
      show oalt none (oalt none (fromisoformat v)) =
          oalt (oalt none (fromisoformat v)) none ∧
        oalt none (oalt (fmtFirst v) (fromisoformat v)) =
          oalt (oalt none (fromisoformat v)) none
      rw [hf]
      constructor
      · show oalt none (fromisoformat v) = oalt (oalt none (fromisoformat v)) none
        rw [oalt_none_right]
      · show oalt none (fromisoformat v) = oalt (oalt none (fromisoformat v)) none
        rw [oalt_none_right]
    · by_cases hse : truncAtST v = []
      · cases v with
        | nil => exact absurd (by rfl) hsv
        | cons x rest =>
          have hpx : decide (x ≠ ' ' ∧ x ≠ 'T') = false := by
            by_cases hp : decide (x ≠ ' ' ∧ x ≠ 'T') = true
            · exfalso
              have hse' : ((x :: rest).takeWhile
                  fun c => decide (c ≠ ' ' ∧ c ≠ 'T')) = [] := hse
              rw [List.takeWhile_cons, if_pos hp] at hse'
              exact List.noConfusion hse'
            · exact Bool.eq_false_iff.mpr hp
          have hxT : x = 'T' := by
            have hx' : ¬(x ≠ ' ' ∧ x ≠ 'T') := of_decide_eq_false hpx
            push_neg at hx'
            by_cases hxs : x = ' '
            · exfalso
              have := hhead x rfl
              rw [hxs] at this
              exact absurd this (by decide)
            · exact hx' hxs
          subst hxT
          have hisoT : fromisoformat ('T' :: rest) = none :=
            fromiso_head_not_digit (by decide)
          rw [if_pos hsv, if_neg (show ¬(truncAtST ('T' :: rest) ≠ [] ∧
            truncAtST ('T' :: rest) ≠ 'T' :: rest) by simp [hse]), hse, hisoT]
          exact ⟨rfl, rfl⟩
      · rw [if_pos hsv, if_pos ⟨hse, hsv⟩]
        cases hiso : fromisoformat v with
        | none => exact ⟨rfl, rfl⟩
        | some d =>
          have hfmt := fromiso_trunc hiso hsv
          rw [hfmt]
          exact ⟨rfl, rfl⟩

/-! ### Digit printing, date validity and parse_date idempotence (toward C3) -/

theorem digitChar_toNat {m : ℕ} (h : m < 10) : (Nat.digitChar m).toNat = 48 + m := by
  interval_cases m <;> decide

theorem digitChar_isDigit {m : ℕ} (h : m < 10) :
    isDigitChar (Nat.digitChar m) = true := by
  interval_cases m <;> decide

theorem natVal_snoc (l : List Char) (c : Char) :
    natVal (l ++ [c]) = 10 * natVal l + (c.toNat - 48) := by
  unfold natVal
  rw [List.foldl_append]
  rfl

theorem natDigitsAux_spec :
    ∀ (fuel n : ℕ), n ≤ fuel →
      natVal (natDigitsAux fuel n) = n ∧
      ∀ c ∈ natDigitsAux fuel n, isDigitChar c = true := by
  intro fuel
  induction fuel with
  | zero =>
    intro n hn
    interval_cases n
    exact ⟨rfl, by intro c hc; simp [natDigitsAux] at hc⟩
  | succ fuel ih =>
    intro n hn
    cases n with
    | zero => exact ⟨rfl, by intro c hc; simp [natDigitsAux] at hc⟩
    | succ n0 =>
      have hdiv : (n0 + 1) / 10 ≤ fuel := by
        have h1 : (n0 + 1) / 10 < n0 + 1 := Nat.div_lt_self (Nat.succ_pos n0) (by omega)
        omega
      obtain ⟨ihv, ihd⟩ := ih ((n0 + 1) / 10) hdiv
      have hmod : (n0 + 1) % 10 < 10 := Nat.mod_lt _ (by omega)
      have hstep : natDigitsAux (fuel + 1) (n0 + 1) =
          natDigitsAux fuel ((n0 + 1) / 10) ++ [Nat.digitChar ((n0 + 1) % 10)] := rfl
      constructor
      · rw [hstep, natVal_snoc, ihv, digitChar_toNat hmod]
        omega
      · intro c hc
        rw [hstep] at hc
        rcases List.mem_append.mp hc with h | h
        · exact ihd c h
        · rw [List.mem_singleton.mp h]
          exact digitChar_isDigit hmod

theorem natDigits_spec (n : ℕ) :
    natVal (natDigits n) = n ∧ (∀ c ∈ natDigits n, isDigitChar c = true) ∧
      natDigits n ≠ [] := by
  unfold natDigits
  by_cases h0 : n = 0
  · subst h0
    rw [if_pos rfl]
    exact ⟨rfl, by intro c hc; rw [List.mem_singleton.mp hc]; decide, by simp⟩
  · rw [if_neg h0]
    obtain ⟨hv, hd⟩ := natDigitsAux_spec n n le_rfl
    refine ⟨hv, hd, ?_⟩
    intro he
    rw [he] at hv
    exact h0 hv.symm

theorem natDigitsAux_length :
    ∀ (fuel n k : ℕ), n ≤ fuel → n < 10 ^ k → (natDigitsAux fuel n).length ≤ k := by
  intro fuel
  induction fuel with
  | zero =>
    intro n k hn _
    interval_cases n
    simp [natDigitsAux]
  | succ fuel ih =>
    intro n k hn hk
    cases n with
    | zero => simp [natDigitsAux]
    | succ n0 =>
      cases k with
      | zero =>
        rw [pow_zero] at hk
        omega
      | succ k0 =>
        have hdiv10 : (n0 + 1) / 10 < 10 ^ k0 := by
          rw [Nat.div_lt_iff_lt_mul (by omega)]
          calc n0 + 1 < 10 ^ (k0 + 1) := hk
            _ = 10 ^ k0 * 10 := by ring
        have hle : (n0 + 1) / 10 ≤ fuel := by
          have := Nat.div_lt_self (Nat.succ_pos n0) (show 1 < 10 by omega)
          omega
        have hstep : natDigitsAux (fuel + 1) (n0 + 1) =
            natDigitsAux fuel ((n0 + 1) / 10) ++ [Nat.digitChar ((n0 + 1) % 10)] := rfl
        rw [hstep, List.length_append]
        have := ih ((n0 + 1) / 10) k0 hle hdiv10
        simp only [List.length_singleton]
        omega

theorem natVal_replicate_zeros (k : ℕ) (l : List Char) :
    natVal (List.replicate k '0' ++ l) = natVal l := by
  induction k with
  | zero => rfl
  | succ k0 ih =>
    have h0 : List.replicate (k0 + 1) '0' ++ l = '0' :: (List.replicate k0 '0' ++ l) :=
      rfl
    have h1 : natVal ('0' :: (List.replicate k0 '0' ++ l)) =
        natVal (List.replicate k0 '0' ++ l) := rfl
    rw [h0, h1, ih]

theorem padNum_digits (w n : ℕ) : ∀ c ∈ padNum w n, isDigitChar c = true := by
  intro c hc
  unfold padNum at hc
  rcases List.mem_append.mp hc with h | h
  · rw [List.eq_of_mem_replicate h]
    decide
  · exact (natDigits_spec n).2.1 c h

theorem padNum_spec (w n : ℕ) (h : n < 10 ^ w) (hw : 1 ≤ w) :
    (padNum w n).length = w ∧ natVal (padNum w n) = n := by
  obtain ⟨hv, _, hne⟩ := natDigits_spec n
  have hlen : (natDigits n).length ≤ w := by
    unfold natDigits
    by_cases h0 : n = 0
    · rw [if_pos h0]
      simpa using hw
    · rw [if_neg h0]
      exact natDigitsAux_length n n w le_rfl h
  constructor
  · unfold padNum
    rw [List.length_append, List.length_replicate]
    omega
  · unfold padNum
    rw [natVal_replicate_zeros, hv]

theorem digit_not_space {c : Char} (h : isDigitChar c = true) :
    isPySpace c = false := by
  simp only [isDigitChar, Bool.and_eq_true, decide_eq_true_eq] at h
  simp only [isPySpace]
  simp
  omega

theorem mkDate_some {y m dd : ℕ} {d : PyDate} (h : mkDate y m dd = some d) :
    d = ⟨y, m, dd⟩ ∧ ValidDate d := by
  unfold mkDate at h
  by_cases hc : 1 ≤ y ∧ y ≤ 9999 ∧ 1 ≤ m ∧ m ≤ 12 ∧ 1 ≤ dd ∧ dd ≤ daysInMonth y m
  · rw [if_pos hc] at h
    have hd := Option.some.inj h
    subst hd
    exact ⟨rfl, hc⟩
  · rw [if_neg hc] at h
    exact Option.noConfusion h

theorem mkDate_of_valid {d : PyDate} (h : ValidDate d) :
    mkDate d.year d.month d.day = some d := by
  unfold ValidDate at h
  unfold mkDate
  rw [if_pos h]

theorem oalt_some_elim {a b : Option PyDate} {d : PyDate} (h : oalt a b = some d) :
    a = some d ∨ b = some d := by
  cases a with
  | some x => exact Or.inl h
  | none => exact Or.inr h

theorem tryDMY_valid {sep : Char} {l : List Char} {d : PyDate}
    (h : tryDMY sep l = some d) : ValidDate d := by
  unfold tryDMY at h
  rcases hsp : splitOnChar sep l with _ | ⟨a, _ | ⟨b, _ | ⟨c0, _ | ⟨d0, tt⟩⟩⟩⟩ <;>
    rw [hsp] at h
  · exact Option.noConfusion h
  · exact Option.noConfusion h
  · exact Option.noConfusion h
  · replace h : (match parse2 a, parse2 b, parse4 c0 with
      | some dd, some m, some y => mkDate y m dd
      | _, _, _ => none) = some d := h
    cases hpa : parse2 a with
    | none => rw [hpa] at h; exact Option.noConfusion h
    | some dd =>
      rw [hpa] at h
      cases hpb : parse2 b with
      | none => rw [hpb] at h; exact Option.noConfusion h
      | some m =>
        rw [hpb] at h
        cases hpc : parse4 c0 with
        | none => rw [hpc] at h; exact Option.noConfusion h
        | some y =>
          rw [hpc] at h
          exact (mkDate_some h).2
  · exact Option.noConfusion h

theorem tryYMD_valid {sep : Char} {l : List Char} {d : PyDate}
    (h : tryYMD sep l = some d) : ValidDate d := by
  unfold tryYMD at h
  rcases hsp : splitOnChar sep l with _ | ⟨a, _ | ⟨b, _ | ⟨c0, _ | ⟨d0, tt⟩⟩⟩⟩ <;>
    rw [hsp] at h
  · exact Option.noConfusion h
  · exact Option.noConfusion h
  · exact Option.noConfusion h
  · replace h : (match parse4 a, parse2 b, parse2 c0 with
      | some y, some m, some dd => mkDate y m dd
      | _, _, _ => none) = some d := h
    cases hpa : parse4 a with
    | none => rw [hpa] at h; exact Option.noConfusion h
    | some y =>
      rw [hpa] at h
      cases hpb : parse2 b with
      | none => rw [hpb] at h; exact Option.noConfusion h
      | some m =>
        rw [hpb] at h
        cases hpc : parse2 c0 with
        | none => rw [hpc] at h; exact Option.noConfusion h
        | some dd =>
          rw [hpc] at h
          exact (mkDate_some h).2
  · exact Option.noConfusion h

theorem tryDMYspace_valid {l : List Char} {d : PyDate}
    (h : tryDMYspace l = some d) : ValidDate d := by
  unfold tryDMYspace at h
  rcases hsp : spaceParts l with _ | ⟨a, _ | ⟨b, _ | ⟨c0, _ | ⟨d0, tt⟩⟩⟩⟩ <;>
    rw [hsp] at h
  · exact Option.noConfusion h
  · exact Option.noConfusion h
  · exact Option.noConfusion h
  · replace h : (match parse2 a, parse2 b, parse4 c0 with
      | some dd, some m, some y => mkDate y m dd
      | _, _, _ => none) = some d := h
    cases hpa : parse2 a with
    | none => rw [hpa] at h; exact Option.noConfusion h
    | some dd =>
      rw [hpa] at h
      cases hpb : parse2 b with
      | none => rw [hpb] at h; exact Option.noConfusion h
      | some m =>
        rw [hpb] at h
        cases hpc : parse4 c0 with
        | none => rw [hpc] at h; exact Option.noConfusion h
        | some y =>
          rw [hpc] at h
          exact (mkDate_some h).2
  · exact Option.noConfusion h

theorem tryDNameY_valid {tbl : List (List Char)} {l : List Char} {d : PyDate}
    (h : tryDNameY tbl l = some d) : ValidDate d := by
  unfold tryDNameY at h
  rcases hsp : spaceParts l with _ | ⟨a, _ | ⟨b, _ | ⟨c0, _ | ⟨d0, tt⟩⟩⟩⟩ <;>
    rw [hsp] at h
  · exact Option.noConfusion h
  · exact Option.noConfusion h
  · exact Option.noConfusion h
  · replace h : (match parse2 a, monthFromName tbl b, parse4 c0 with
      | some dd, some m, some y => mkDate y m dd
      | _, _, _ => none) = some d := h
    cases hpa : parse2 a with
    | none => rw [hpa] at h; exact Option.noConfusion h
    | some dd =>
      rw [hpa] at h
      cases hpb : monthFromName tbl b with
      | none => rw [hpb] at h; exact Option.noConfusion h
      | some m =>
        rw [hpb] at h
        cases hpc : parse4 c0 with
        | none => rw [hpc] at h; exact Option.noConfusion h
        | some y =>
          rw [hpc] at h
          exact (mkDate_some h).2
  · exact Option.noConfusion h

theorem fmtFirst_valid {l : List Char} {d : PyDate} (h : fmtFirst l = some d) :
    ValidDate d := by
  unfold fmtFirst at h
  rcases oalt_some_elim h with h | h
  · exact tryDMY_valid h
  rcases oalt_some_elim h with h | h
  · exact tryYMD_valid h
  rcases oalt_some_elim h with h | h
  · exact tryDMY_valid h
  rcases oalt_some_elim h with h | h
  · exact tryDMY_valid h
  rcases oalt_some_elim h with h | h
  · exact tryDMYspace_valid h
  rcases oalt_some_elim h with h | h
  · exact tryDNameY_valid h
  rcases oalt_some_elim h with h | h
  · exact tryDNameY_valid h
  exact tryYMD_valid h

theorem fromiso_valid {l : List Char} {d : PyDate} (h : fromisoformat l = some d) :
    ValidDate d := by
  unfold fromisoformat at h
  by_cases h10 : l.length = 10
  · rw [if_pos h10] at h
    obtain ⟨_, _, _, _, _, _, _, _, _, _, hmk⟩ := parseIsoDate10_some h
    exact (mkDate_some hmk).2
  · rw [if_neg h10] at h
    by_cases hgt : 10 < l.length
    · rw [if_pos hgt] at h
      by_cases htl : (l.drop 11) ≠ [] ∧ (l.drop 11).all isoTailChar = true
      · rw [if_pos htl] at h
        obtain ⟨_, _, _, _, _, _, _, _, _, _, hmk⟩ := parseIsoDate10_some h
        exact (mkDate_some hmk).2
      · rw [if_neg htl] at h
        exact Option.noConfusion h
    · rw [if_neg hgt] at h
      exact Option.noConfusion h

theorem parse_dateCore_valid {v : List Char} {d : PyDate}
    (h : parse_dateCore v = some d) : ValidDate d := by
  simp only [parse_dateCore] at h
  rcases oalt_some_elim h with h | h
  · rcases oalt_some_elim h with h | h
    · exact fmtFirst_valid h
    · exact fromiso_valid h
  · by_cases hc : truncAtST v ≠ [] ∧ truncAtST v ≠ v
    · rw [if_pos hc] at h
      rcases oalt_some_elim h with h | h
      · exact fmtFirst_valid h
      · exact fromiso_valid h
    · rw [if_neg hc] at h
      exact Option.noConfusion h

theorem list_len4 {l : List Char} (h : l.length = 4) :
    ∃ a b c d, l = [a, b, c, d] := by
  rcases l with _ | ⟨a, _ | ⟨b, _ | ⟨c, _ | ⟨d, _ | ⟨e, t⟩⟩⟩⟩⟩ <;> simp at h
  exact ⟨a, b, c, d, rfl⟩

theorem list_len2 {l : List Char} (h : l.length = 2) : ∃ a b, l = [a, b] := by
  rcases l with _ | ⟨a, _ | ⟨b, _ | ⟨c, t⟩⟩⟩ <;> simp at h
  exact ⟨a, b, rfl⟩

theorem daysInMonth_le (y m : ℕ) : daysInMonth y m ≤ 31 := by
  unfold daysInMonth
  split
  · split <;> omega
  · split <;> omega

theorem fmtFirst_isoformatL {d : PyDate} (h : ValidDate d) :
    fmtFirst (isoformatL d) = some d := by
  obtain ⟨h1, h2, h3, h4, h5, h6⟩ := h
  have hy : d.year < 10 ^ 4 := by norm_num; omega
  have hm : d.month < 10 ^ 2 := by norm_num; omega
  have hd : d.day < 10 ^ 2 := by
    have := daysInMonth_le d.year d.month
    norm_num
    omega
  obtain ⟨hylen, hyval⟩ := padNum_spec 4 d.year hy (by omega)
  obtain ⟨y1, y2, y3, y4, hyeq⟩ := list_len4 hylen
  obtain ⟨hmlen, hmval⟩ := padNum_spec 2 d.month hm (by omega)
  obtain ⟨m1, m2, hmeq⟩ := list_len2 hmlen
  obtain ⟨hdlen, hdval⟩ := padNum_spec 2 d.day hd (by omega)
  obtain ⟨dd1, dd2, hdeq⟩ := list_len2 hdlen
  have hiso : isoformatL d = [y1, y2, y3, y4, '-', m1, m2, '-', dd1, dd2] := by
    unfold isoformatL
    rw [hyeq, hmeq, hdeq]
    rfl
  rw [hiso]
  refine fmtFirst_iso
    (padNum_digits 4 d.year y1 (by rw [hyeq]; simp))
    (padNum_digits 4 d.year y2 (by rw [hyeq]; simp))
    (padNum_digits 4 d.year y3 (by rw [hyeq]; simp))
    (padNum_digits 4 d.year y4 (by rw [hyeq]; simp))
    (padNum_digits 2 d.month m1 (by rw [hmeq]; simp))
    (padNum_digits 2 d.month m2 (by rw [hmeq]; simp))
    (padNum_digits 2 d.day dd1 (by rw [hdeq]; simp))
    (padNum_digits 2 d.day dd2 (by rw [hdeq]; simp))
    ?_
  rw [show [y1, y2, y3, y4] = padNum 4 d.year from hyeq.symm,
    show [m1, m2] = padNum 2 d.month from hmeq.symm,
    show [dd1, dd2] = padNum 2 d.day from hdeq.symm,
    hyval, hmval, hdval]
  exact mkDate_of_valid ⟨h1, h2, h3, h4, h5, h6⟩

theorem isoformatL_chars {d : PyDate} {c : Char} (hc : c ∈ isoformatL d) :
    isDigitChar c = true ∨ c = '-' := by
  unfold isoformatL at hc
  rcases List.mem_append.mp hc with h | h
  · exact Or.inl (padNum_digits 4 d.year c h)
  rcases List.mem_cons.mp h with h | h
  · exact Or.inr h
  rcases List.mem_append.mp h with h | h
  · exact Or.inl (padNum_digits 2 d.month c h)
  rcases List.mem_cons.mp h with h | h
  · exact Or.inr h
  exact Or.inl (padNum_digits 2 d.day c h)

theorem trimPy_eq_self {l : List Char} (h : ∀ c ∈ l, isPySpace c = false) :
    trimPy l = l :=
  stripEnds_eq_self (fun c hc => h c (mem_of_head? hc))
    (fun c hc => h c (mem_of_getLast? hc))

theorem trimPy_idem (l : List Char) : trimPy (trimPy l) = trimPy l :=
  stripEnds_eq_self (fun _ hc => head?_stripEnds_false hc)
    (fun _ hc => getLast?_stripEnds_false hc)

theorem trimPy_isoformatL (d : PyDate) : trimPy (isoformatL d) = isoformatL d := by
  refine trimPy_eq_self (fun c hc => ?_)
  rcases isoformatL_chars hc with h1 | h1
  · exact digit_not_space h1
  · rw [h1]
    decide

theorem isoformatL_ne_nil (d : PyDate) : isoformatL d ≠ [] := by
  intro he
  rw [show isoformatL d =
    padNum 4 d.year ++ '-' :: (padNum 2 d.month ++ '-' :: padNum 2 d.day) from rfl] at he
  simp at he

theorem parse_dateL_isoformatL {d : PyDate} (h : ValidDate d) :
    parse_dateL (isoformatL d) = isoformatL d := by
  have hcore : parse_dateCore (isoformatL d) = some d := by
    simp only [parse_dateCore]
    rw [fmtFirst_isoformatL h]
    rfl
  unfold parse_dateL
  rw [trimPy_isoformatL, if_neg (isoformatL_ne_nil d), hcore]

theorem parse_dateL_idem (raw : List Char) :
    parse_dateL (parse_dateL raw) = parse_dateL raw := by
  by_cases he : trimPy raw = []
  · rw [show parse_dateL raw = [] by unfold parse_dateL; rw [if_pos he]]
    rfl
  · cases hcore : parse_dateCore (trimPy raw) with
    | some d =>
      have hout : parse_dateL raw = isoformatL d := by
        unfold parse_dateL
        rw [if_neg he, hcore]
      rw [hout]
      exact parse_dateL_isoformatL (parse_dateCore_valid hcore)
    | none =>
      have hout : parse_dateL raw = trimPy raw := by
        unfold parse_dateL
        rw [if_neg he, hcore]
      rw [hout]
      unfold parse_dateL
      rw [trimPy_idem, if_neg he, hcore]

theorem trimPy_parse_dateL (raw : List Char) :
    trimPy (parse_dateL raw) = parse_dateL raw := by
  by_cases he : trimPy raw = []
  · rw [show parse_dateL raw = [] by unfold parse_dateL; rw [if_pos he]]
    rfl
  · cases hcore : parse_dateCore (trimPy raw) with
    | some d =>
      have hout : parse_dateL raw = isoformatL d := by
        unfold parse_dateL
        rw [if_neg he, hcore]
      rw [hout, trimPy_isoformatL]
    | none =>
      have hout : parse_dateL raw = trimPy raw := by
        unfold parse_dateL
        rw [if_neg he, hcore]
      rw [hout, trimPy_idem]

/-! ### Two-decimal export format and its re-ingestion (toward C3) -/

theorem dropWhile_append_of {p : Char → Bool} {A B : List Char} {c0 : Char}
    (hA : ∀ c ∈ A, p c = true) (hc : p c0 = false) :
    (A ++ c0 :: B).dropWhile p = c0 :: B := by
  induction A with
  | nil =>
    rw [List.nil_append, List.dropWhile_cons, if_neg (by rw [hc]; exact Bool.false_ne_true)]
  | cons a t ih =>
    rw [List.cons_append, List.dropWhile_cons, if_pos (hA a (List.mem_cons_self a t))]
    exact ih (fun c hcm => hA c (List.mem_cons_of_mem a hcm))

theorem contains_false {x : Char} :
    ∀ {l : List Char}, (∀ c ∈ l, c ≠ x) → l.contains x = false := by
  intro l
  induction l with
  | nil => intro _; rfl
  | cons a t ih =>
    intro h
    rw [List.contains_cons]
    have hax : (x == a) = false :=
      beq_eq_false_iff_ne.mpr (Ne.symm (h a (List.mem_cons_self a t)))
    rw [hax, ih (fun c hc => h c (List.mem_cons_of_mem a hc))]
    rfl

theorem roundHalfEven_natCast (k : ℕ) : roundHalfEven (k : ℚ) = k := by
  unfold roundHalfEven
  rw [Int.floor_natCast]
  rw [if_pos (by push_cast; norm_num)]

theorem format2dec_div100 (k : ℕ) :
    format2dec ((k : ℚ) / 100) = natDigits (k / 100) ++ '.' :: padNum 2 (k % 100) := by
  have h100 : (100 : ℚ) * ((k : ℚ) / 100) = (k : ℚ) := by
    field_simp
  simp only [format2dec]
  rw [h100, roundHalfEven_natCast]
  rw [if_neg (not_lt.mpr (Int.natCast_nonneg k))]
  rw [show ((k : ℤ).natAbs) = k by simp]
  rfl

theorem pyFloat_digits_dot {A B : List Char} (hAne : A ≠ [])
    (hA : ∀ c ∈ A, isDigitChar c = true) (hB : ∀ c ∈ B, isDigitChar c = true) :
    pyFloat (A ++ '.' :: B) = some (ratOfParts false (natVal A) (natVal B) B.length) := by
  obtain ⟨a0, t0, ha0⟩ : ∃ a0 t0, A = a0 :: t0 := by
    cases hs : A with
    | nil => exact absurd hs hAne
    | cons a b => exact ⟨a, b, rfl⟩
  have ha0d : isDigitChar a0 = true := hA a0 (by rw [ha0]; simp)
  have hhead : (A ++ '.' :: B).head? = some a0 := by rw [ha0]; rfl
  have hnegf : (decide ((A ++ '.' :: B).head? = some '-')) = false := by
    apply decide_eq_false
    rw [hhead]
    intro hcon
    exact digit_ne ha0d (by decide) (Option.some.inj hcon)
  have hcond : ¬((A ++ '.' :: B).head? = some '-' ∨ (A ++ '.' :: B).head? = some '+') := by
    rw [hhead]
    push_neg
    constructor
    · intro hcon
      exact digit_ne ha0d (by decide) (Option.some.inj hcon)
    · intro hcon
      exact digit_ne ha0d (by decide) (Option.some.inj hcon)
  have htake : (A ++ '.' :: B).takeWhile isDigitChar = A := by
    rw [takeWhile_append_all hA, List.takeWhile_cons,
      if_neg (by rw [show isDigitChar '.' = false from rfl]; exact Bool.false_ne_true)]
    exact List.append_nil A
  have hdrop : (A ++ '.' :: B).dropWhile isDigitChar = '.' :: B :=
    dropWhile_append_of hA (by decide)
  simp only [pyFloat]
  rw [hnegf, if_neg hcond, htake, hdrop]
  rw [if_neg (by simp : ¬('.' :: B = []))]
  rw [if_pos ⟨rfl, List.all_eq_true.mpr (by
      intro c hc
      simp only [List.tail_cons] at hc
      exact hB c hc),
    Or.inl hAne⟩]
  rfl

theorem parse_amountL_digits_dot {i f : ℕ} :
    parse_amountL (natDigits i ++ '.' :: padNum 2 f) =
      some (ratOfParts false i (natVal (padNum 2 f)) (padNum 2 f).length) := by
  obtain ⟨hival, hidig, hine⟩ := natDigits_spec i
  obtain ⟨h0, t0, hnd⟩ : ∃ h0 t0, natDigits i = h0 :: t0 := by
    cases hs : natDigits i with
    | nil => exact absurd hs hine
    | cons a b => exact ⟨a, b, rfl⟩
  have hh0 : isDigitChar h0 = true := hidig h0 (by rw [hnd]; simp)
  have hchars : ∀ c ∈ natDigits i ++ '.' :: padNum 2 f,
      isDigitChar c = true ∨ c = '.' := by
    intro c hc
    rcases List.mem_append.mp hc with h | h
    · exact Or.inl (hidig c h)
    · rcases List.mem_cons.mp h with h | h
      · exact Or.inr h
      · exact Or.inl (padNum_digits 2 f c h)
  have hLhead : (natDigits i ++ '.' :: padNum 2 f).head? = some h0 := by
    rw [hnd]
    rfl
  have htrim : trimPy (natDigits i ++ '.' :: padNum 2 f) =
      natDigits i ++ '.' :: padNum 2 f := by
    refine trimPy_eq_self (fun c hc => ?_)
    rcases hchars c hc with h | h
    · exact digit_not_space h
    · rw [h]
      decide
  have hLne : natDigits i ++ '.' :: padNum 2 f ≠ [] := by
    rw [hnd]
    simp
  have hparen : isParenWrapped (natDigits i ++ '.' :: padNum 2 f) = false := by
    unfold isParenWrapped
    rw [hLhead]
    have h1 : h0 ≠ '(' := digit_ne hh0 (by decide)
    simp [h1]
  have hfilter1 : (natDigits i ++ '.' :: padNum 2 f).filter (fun c => !isAmountSep c) =
      natDigits i ++ '.' :: padNum 2 f := by
    refine List.filter_eq_self.mpr (fun c hc => ?_)
    rcases hchars c hc with h | h
    · simp only [isDigitChar, Bool.and_eq_true, decide_eq_true_eq] at h
      simp [isAmountSep]
      omega
    · rw [h]
      decide
  have hnocomma : ∀ c ∈ natDigits i ++ '.' :: padNum 2 f, c ≠ ',' := by
    intro c hc
    rcases hchars c hc with h | h
    · exact digit_ne h (by decide)
    · rw [h]
      decide
  have hrule1 : rule1Applies (natDigits i ++ '.' :: padNum 2 f) = false := by
    unfold rule1Applies
    rw [List.count_eq_zero.mpr (fun hmem => hnocomma ',' hmem rfl)]
    rfl
  have hrule2 : rule2Applies (natDigits i ++ '.' :: padNum 2 f) = false := by
    unfold rule2Applies
    rw [contains_false hnocomma]
    rfl
  have hfilter2 : (natDigits i ++ '.' :: padNum 2 f).filter keepAmountChar =
      natDigits i ++ '.' :: padNum 2 f := by
    refine List.filter_eq_self.mpr (fun c hc => ?_)
    rcases hchars c hc with h | h
    · simp [keepAmountChar, h]
    · rw [h]
      decide
  have hcore : amountCore (natDigits i ++ '.' :: padNum 2 f) =
      some (ratOfParts false i (natVal (padNum 2 f)) (padNum 2 f).length) := by
    simp only [amountCore]
    rw [hfilter1, hrule1]
    simp only [Bool.false_eq_true, if_false]
    rw [hrule2]
    simp only [Bool.false_eq_true, if_false]
    rw [hfilter2]
    rw [if_neg ?hguard]
    case hguard =>
      intro hor
      rcases hor with he | he | he
      · exact hLne he
      · rw [hnd] at he
        have hh := congrArg List.head? he
        simp only [List.head?_cons, List.cons_append, Option.some.injEq] at hh
        exact digit_ne hh0 (by decide) hh
      · rw [hnd] at he
        have hh := congrArg List.head? he
        simp only [List.head?_cons, List.cons_append, Option.some.injEq] at hh
        exact digit_ne hh0 (by decide) hh
    rw [pyFloat_digits_dot hine hidig (padNum_digits 2 f), hival]
  show parse_amountL (natDigits i ++ '.' :: padNum 2 f) = _
  unfold parse_amountL
  rw [htrim, if_neg hLne, if_neg (by rw [hparen]; exact Bool.false_ne_true), hcore]

theorem parse_amount_format2 (k : ℕ) :
    parse_amountL (format2dec ((k : ℚ) / 100)) = some ((k : ℚ) / 100) := by
  rw [format2dec_div100, parse_amountL_digits_dot]
  obtain ⟨hflen, hfval⟩ := padNum_spec 2 (k % 100)
    (by norm_num; omega) (by omega)
  rw [hflen, hfval]
  have hmod : 100 * (k / 100) + k % 100 = k := Nat.div_add_mod k 100
  have hq : (k : ℚ) = 100 * ((k / 100 : ℕ) : ℚ) + ((k % 100 : ℕ) : ℚ) := by
    exact_mod_cast hmod.symm
  unfold ratOfParts
  rw [if_neg (Bool.false_ne_true), hq]
  refine congrArg some ?_
  ring

theorem format2dec_chars {k : ℕ} {c : Char}
    (hc : c ∈ format2dec ((k : ℚ) / 100)) : isDigitChar c = true ∨ c = '.' := by
  rw [format2dec_div100] at hc
  rcases List.mem_append.mp hc with h | h
  · exact Or.inl ((natDigits_spec (k / 100)).2.1 c h)
  · rcases List.mem_cons.mp h with h | h
    · exact Or.inr h
    · exact Or.inl (padNum_digits 2 (k % 100) c h)

theorem trimPy_format2 (k : ℕ) :
    trimPy (format2dec ((k : ℚ) / 100)) = format2dec ((k : ℚ) / 100) := by
  refine trimPy_eq_self (fun c hc => ?_)
  rcases format2dec_chars hc with h | h
  · exact digit_not_space h
  · rw [h]
    decide

theorem reconcile_empty_montant (d c : Option ℚ) : reconcile d c "" = (d, c) := by
  unfold reconcile
  rw [if_neg (fun h => h.2.2 rfl)]

theorem absFix_div100 (k : ℕ) :
    absFix (some ((k : ℚ) / 100)) = some ((k : ℚ) / 100) := by
  show (if ((k : ℚ) / 100) < 0 then some |(k : ℚ) / 100| else some ((k : ℚ) / 100)) = _
  rw [if_neg (not_lt.mpr (by positivity))]

theorem convert_montantNeg50 :
    (convert_row montantNeg50Row).debit = some 50 ∧
    (convert_row montantNeg50Row).credit = none ∧
    (convert_row montantNeg50Row).date_comptabilisation = parse_date "" := by
  have hrec := reconcile_none_none_some (by decide : ("-50,00" : String) ≠ "")
    parse_amount_neg50_comma
  rw [if_pos (by norm_num : (-50 : ℚ) < 0)] at hrec
  refine ⟨?_, ?_, rfl⟩
  · rw [(convert_row_debit_credit montantNeg50Row).1]
    show (reconcile none none "-50,00").1 = some 50
    rw [hrec]
    norm_num
  · rw [(convert_row_debit_credit montantNeg50Row).2]
    show (reconcile none none "-50,00").2 = none
    rw [hrec]

/-- C3 (amended, positive part): on any record whose booking date is the
output of `parse_date` and whose debit and credit are each absent or a whole
number of cents (as every two-decimal ingested amount is), exporting and
re-ingesting reproduces the debit, the credit and the booking date. -/
theorem C3_amended_roundtrip (op : OperationBancaire)
    (hdate : ∃ raw : String, op.date_comptabilisation = parse_date raw)
    (hd : op.debit = none ∨ ∃ k : ℕ, op.debit = some ((k : ℚ) / 100))
    (hc : op.credit = none ∨ ∃ k : ℕ, op.credit = some ((k : ℚ) / 100)) :
    (reingest_row op).debit = op.debit ∧ (reingest_row op).credit = op.credit ∧
      (reingest_row op).date_comptabilisation = op.date_comptabilisation := by
  have hcell : ∀ o : Option ℚ, (o = none ∨ ∃ k : ℕ, o = some ((k : ℚ) / 100)) →
      absFix (parse_amount (pyStrip (exportAmountCell o))) = o := by
    intro o ho
    rcases ho with h | ⟨k, h⟩
    · rw [h]
      rfl
    · rw [h]
      show absFix (parse_amountL (trimPy (format2dec ((k : ℚ) / 100)))) = _
      rw [trimPy_format2, parse_amount_format2, absFix_div100]
  unfold reingest_row
  refine ⟨?_, ?_, ?_⟩
  · rw [(convert_row_debit_credit (fun f => pyStrip (exportRow op f))).1]
    show (reconcile (absFix (parse_amount (pyStrip (exportAmountCell op.debit))))
      (absFix (parse_amount (pyStrip (exportAmountCell op.credit)))) "").1 = op.debit
    rw [reconcile_empty_montant]
    exact hcell op.debit hd
  · rw [(convert_row_debit_credit (fun f => pyStrip (exportRow op f))).2]
    show (reconcile (absFix (parse_amount (pyStrip (exportAmountCell op.debit))))
      (absFix (parse_amount (pyStrip (exportAmountCell op.credit)))) "").2 = op.credit
    rw [reconcile_empty_montant]
    exact hcell op.credit hc
  · obtain ⟨raw, hraw⟩ := hdate
    show parse_date (pyStrip op.date_comptabilisation) = op.date_comptabilisation
    rw [hraw]
    show (⟨parse_dateL (trimPy (parse_dateL raw.data))⟩ : String) = ⟨parse_dateL raw.data⟩
    rw [trimPy_parse_dateL, parse_dateL_idem]

/-- C3 witness: the round-trip theorem applied to the record ingested from a
row whose montant cell is `"-50,00"` (debit 50, credit absent, empty date). -/
theorem C3_amended_roundtrip_witness :
    ((∃ raw : String,
        (convert_row montantNeg50Row).date_comptabilisation = parse_date raw) ∧
      ((convert_row montantNeg50Row).debit = none ∨
        ∃ k : ℕ, (convert_row montantNeg50Row).debit = some ((k : ℚ) / 100)) ∧
      ((convert_row montantNeg50Row).credit = none ∨
        ∃ k : ℕ, (convert_row montantNeg50Row).credit = some ((k : ℚ) / 100))) ∧
    ((reingest_row (convert_row montantNeg50Row)).debit =
        (convert_row montantNeg50Row).debit ∧
      (reingest_row (convert_row montantNeg50Row)).credit =
        (convert_row montantNeg50Row).credit ∧
      (reingest_row (convert_row montantNeg50Row)).date_comptabilisation =
        (convert_row montantNeg50Row).date_comptabilisation) := by
  have hdate : ∃ raw : String,
      (convert_row montantNeg50Row).date_comptabilisation = parse_date raw :=
    ⟨"", convert_montantNeg50.2.2⟩
  have hd : (convert_row montantNeg50Row).debit = none ∨
      ∃ k : ℕ, (convert_row montantNeg50Row).debit = some ((k : ℚ) / 100) :=
    Or.inr ⟨5000, by rw [convert_montantNeg50.1]; norm_num⟩
  have hc : (convert_row montantNeg50Row).credit = none ∨
      ∃ k : ℕ, (convert_row montantNeg50Row).credit = some ((k : ℚ) / 100) :=
    Or.inl convert_montantNeg50.2.1
  exact ⟨⟨hdate, hd, hc⟩,
    C3_amended_roundtrip (convert_row montantNeg50Row) hdate hd hc⟩

/-- C3 counterexample: a montant cell of `"12,345"` ingests to a credit of
12.345, which the two-decimal export rounds to `"12.34"`; re-ingesting yields
12.34, so the round trip does not reproduce the credit. -/
theorem C3_counterexample :
    (reingest_row (convert_row montant3decRow)).credit ≠
      (convert_row montant3decRow).credit := by
  have hpa : parse_amount "12,345" = some (2469 / 200 : ℚ) := by
    rw [show parse_amount "12,345" = some (ratOfParts false 12 345 3) from rfl]
    norm_num [ratOfParts]
  have hrec := reconcile_none_none_some (by decide : ("12,345" : String) ≠ "") hpa
  rw [if_neg (by norm_num : ¬((2469 / 200 : ℚ) < 0)),
    if_pos (by norm_num : (0 : ℚ) < 2469 / 200)] at hrec
  have hdeb : (convert_row montant3decRow).debit = none := by
    rw [(convert_row_debit_credit montant3decRow).1]
    show (reconcile none none "12,345").1 = none
    rw [hrec]
  have hcred : (convert_row montant3decRow).credit = some (2469 / 200 : ℚ) := by
    rw [(convert_row_debit_credit montant3decRow).2]
    show (reconcile none none "12,345").2 = some (2469 / 200 : ℚ)
    rw [hrec]
  have hfl : ⌊(2469 / 2 : ℚ)⌋ = 1234 := by
    rw [Int.floor_eq_iff]
    norm_num
  have hrnd : roundHalfEven (2469 / 2 : ℚ) = 1234 := by
    unfold roundHalfEven
    rw [hfl]
    rw [if_neg (by norm_num), if_neg (by norm_num), if_pos (by decide)]
  have hfd : format2dec (2469 / 200 : ℚ) = ['1', '2', '.', '3', '4'] := by
    simp only [format2dec]
    rw [show (100 : ℚ) * (2469 / 200) = 2469 / 2 by norm_num, hrnd]
    rw [if_neg (by decide : ¬((1234 : ℤ) < 0))]
    decide
  have hcell : pyStrip (exportRow (convert_row montant3decRow) .credit) =
      ⟨['1', '2', '.', '3', '4']⟩ := by
    show pyStrip (exportAmountCell (convert_row montant3decRow).credit) = _
    rw [hcred]
    show (⟨trimPy (format2dec (2469 / 200 : ℚ))⟩ : String) = _
    rw [hfd]
    decide
  have hreparse : absFix (parse_amount
      (pyStrip (exportRow (convert_row montant3decRow) .credit))) =
      some (ratOfParts false 12 34 2) := by
    rw [hcell]
    rw [show parse_amount ⟨['1', '2', '.', '3', '4']⟩ =
      some (ratOfParts false 12 34 2) from rfl]
    show (if ratOfParts false 12 34 2 < 0 then some |ratOfParts false 12 34 2|
      else some (ratOfParts false 12 34 2)) = _
    rw [if_neg (by norm_num [ratOfParts])]
  have hdebcell : absFix (parse_amount
      (pyStrip (exportRow (convert_row montant3decRow) .debit))) = none := by
    show absFix (parse_amount
      (pyStrip (exportAmountCell (convert_row montant3decRow).debit))) = none
    rw [hdeb]
    rfl
  have hre : (reingest_row (convert_row montant3decRow)).credit =
      some (ratOfParts false 12 34 2) := by
    unfold reingest_row
    rw [(convert_row_debit_credit
      (fun f => pyStrip (exportRow (convert_row montant3decRow) f))).2]
    show (reconcile
      (absFix (parse_amount (pyStrip (exportRow (convert_row montant3decRow) .debit))))
      (absFix (parse_amount (pyStrip (exportRow (convert_row montant3decRow) .credit))))
      "").2 = _
    rw [hdebcell, hreparse, reconcile_empty_montant]
  rw [hre, hcred]
  intro hcon
  have h2 := Option.some.inj hcon
  norm_num [ratOfParts] at h2

/-- C10: the three date-parser variants — `parse_date` in
`src/csv_handler.py`, `_parse_date` in `src/ana_budget/csv_handler.py` and
`parse_date` in `src/main_fixed.py` — compute the same function on every
input string, despite sequencing the truncation retry and the generic ISO
fallback differently. -/
theorem C10_date_parser_variants_agree (s : String) :
    parse_date s = parse_dateAna s ∧ parse_date s = parse_dateFixed s := by
  have hh : ∀ c, (trimPy s.data).head? = some c → isPySpace c = false :=
    fun c hc => head?_stripEnds_false hc
  obtain ⟨h1, h2⟩ := dateCores_agree (trimPy s.data) hh
  constructor
  · show (⟨parse_dateL s.data⟩ : String) = ⟨parse_dateAnaL s.data⟩
    unfold parse_dateL parse_dateAnaL
    by_cases he : trimPy s.data = []
    · rw [if_pos he, if_pos he]
    · rw [if_neg he, if_neg he, h1]
  · show (⟨parse_dateL s.data⟩ : String) = ⟨parse_dateFixedL s.data⟩
    unfold parse_dateL parse_dateFixedL
    by_cases he : trimPy s.data = []
    · rw [if_pos he, if_pos he]
    · rw [if_neg he, if_neg he, h2]

end AnaBudget
